import Mathlib

/-!
Verification of the `optiframe` workflow engine
(`optiframe/workflow_engine/step.py`, `task.py`, `workflow.py`, `errors.py`).

The embedding mirrors the Python source:

* Annotation objects obtained by runtime introspection are modelled by `Ann K`:
  a real class object (`Ann.key`), the Python `None` object (`Ann.pyNone`,
  which `inspect` reports for an explicit `: None` / `-> None` annotation),
  and the `inspect.Parameter.empty` / `Signature.empty` sentinel (`Ann.empty`,
  which `inspect` reports when an annotation is missing).
* A task class is modelled by `TaskSpec`: `id` models class identity (Python
  compares task classes with `!=`, i.e. identity), `initParams` models the
  `__init__` parameters after `self` in order (name plus annotation, as
  collected by `InitializedStep._task_dependencies`), `ret` models
  `Task.get_return_type()` (the return annotation of `execute`), and `run`
  models instantiating the task with the injected dependency values (in
  parameter order) and calling `task_obj.execute()`; the `none` result models
  a Python `None` return value.
* `step_data` (a Python `dict` keyed by annotation objects) is modelled by an
  association list with the dict operations used by the source: `dictGet`
  (subscription), `dictSet` (assignment, replacing in place or appending) and
  `keysOf` (`.keys()`).
* `InitializedStep.execute` is modelled by `Optiframe.execute`: the check of
  `_task_dependencies` for `None` annotations, then the `while` loop.  One
  round of the inner `for` loop over the pass-start snapshot is `runPass`;
  the `while` loop is `execLoop`, written with an explicit iteration budget
  (`fuel`).  `execute` supplies `tasks.length` as the budget, and the
  development proves the budget is never exhausted (each pass either removes
  a pending task or raises), which is exactly the termination argument of the
  source's `has_executed` guard.
* Raised exceptions are modelled by `StepError`; the data and trace carried
  alongside an error model the observable state of `self.step_data` (mutated
  in place by the source) at the moment the exception is raised.  The trace
  of executed tasks is ghost instrumentation: it records, for every task
  execution, the step data at construction time, the injected values and the
  returned value.
-/

namespace Optiframe

/-- An annotation object as reported by `inspect`: a class object, the Python
`None` object, or the `inspect.Parameter.empty` / `Signature.empty` sentinel
used for missing annotations. -/
inductive Ann (K : Type) where
  | key : K → Ann K
  | pyNone : Ann K
  | empty : Ann K
deriving DecidableEq

/-- The `TaskDependency` dataclass of `step.py`: a parameter name together
with its annotation (field `ann` models `annotation`). -/
structure TaskDependency (K : Type) where
  param : String
  ann : Ann K
deriving DecidableEq

/-- A task class as seen by the scheduler: its identity (`id`, modelling
Python class identity), its `__init__` parameters after `self` in order
(`initParams`), the result of `get_return_type()` (`ret`) and the behaviour
of constructing the task with the injected values and calling `execute`
(`run`; a `none` result models returning the Python `None` object). -/
structure TaskSpec (K V : Type) where
  id : ℕ
  initParams : List (TaskDependency K)
  ret : Ann K
  run : List V → Option V

/-- The `StepData` dict of `step.py`: a Python dict keyed by annotation
objects, modelled as an association list with unique keys. -/
abbrev StepData (K V : Type) := List (Ann K × V)

variable {K V : Type} [DecidableEq K]

/-- Python dict subscription `d[k]` (as an `Option`; the source never hits a
`KeyError`, which the development makes explicit via `StepError.keyError`). -/
def dictGet (d : StepData K V) (k : Ann K) : Option V :=
  (d.find? (fun p => decide (p.1 = k))).map (fun p => p.2)

/-- Python `d.keys()`. -/
def keysOf (d : StepData K V) : List (Ann K) := d.map (fun p => p.1)

/-- Python dict assignment `d[k] = v`: replace the value in place if the key
is present, otherwise append the new entry. -/
def dictSet (d : StepData K V) (k : Ann K) (v : V) : StepData K V :=
  if k ∈ keysOf d then
    d.map (fun p => if p.1 = k then (k, v) else p)
  else d ++ [(k, v)]

/-- The entry of the `missing_dependencies` dict for one task:
`[dep for dep in dependencies[task] if dep.annotation not in self.step_data.keys()]`.
The `dependencies` dict built by `_task_dependencies` maps each task class to
its `__init__` parameter list, i.e. `t.initParams`. -/
def missingOf (d : StepData K V) (t : TaskSpec K V) : List (TaskDependency K) :=
  t.initParams.filter (fun dep => decide (dep.ann ∉ keysOf d))

/-- The values injected into the task constructor:
`{dep.param: self.step_data[dep.annotation] for dep in dependencies[task]}`,
read from the live step data.  A `none` result models a Python `KeyError`. -/
def depValues (d : StepData K V) (t : TaskSpec K V) : Option (List V) :=
  t.initParams.mapM (fun dep => dictGet d dep.ann)

/-- The check of `_task_dependencies`: the first `__init__` parameter whose
annotation `is None` (note: a *missing* annotation is the
`inspect.Parameter.empty` sentinel, which is not `None`). -/
def findBadParam (t : TaskSpec K V) : Option (TaskDependency K) :=
  t.initParams.find? (fun dep => decide (dep.ann = Ann.pyNone))

/-- The first task (in registration order) on which `_task_dependencies`
raises an `InjectionError`, together with the offending parameter. -/
def badParamError (tasks : List (TaskSpec K V)) :
    Option (TaskSpec K V × TaskDependency K) :=
  tasks.findSome? (fun t => (findBadParam t).map (fun dep => (t, dep)))

/-- Ghost record of one task execution: the task, the step data at the moment
the task object was constructed, the injected dependency values (in parameter
order), and the value returned by `execute`. -/
structure TraceEvent (K V : Type) where
  task : TaskSpec K V
  dataAt : StepData K V
  args : List V
  result : Option V

/-- The exceptions `InitializedStep.execute` can raise.  `injectionInit` is
the `InjectionError` of `_task_dependencies`; `injectionReturn` the
`InjectionError` for a task that returned `None` while `get_return_type()`
is not `None`; `schedule` the `ScheduleError`, carrying for every
still-pending task its missing dependencies (the data formatted into the
message); `keyError` a `KeyError` on dict subscription (never actually
raised); `outOfFuel` marks exhaustion of the explicit iteration budget of the
`while` loop (proved unreachable for the budget used by `execute`). -/
inductive StepError (K V : Type) where
  | injectionInit : TaskSpec K V → TaskDependency K → StepError K V
  | injectionReturn : TaskSpec K V → StepError K V
  | keyError : StepError K V
  | schedule : List (TaskSpec K V × List (TaskDependency K)) → StepError K V
  | outOfFuel : StepError K V

/-- Outcome of one round of the `for` loop over the pass-start snapshot:
either an exception (with the step data and the events of the pass up to that
point) or the updated step data, the updated pending list, the
`has_executed` flag and the events of the pass. -/
inductive PassOut (K V : Type) where
  | fail : StepError K V → StepData K V → List (TraceEvent K V) → PassOut K V
  | next : StepData K V → List (TaskSpec K V) → Bool → List (TraceEvent K V) → PassOut K V

/-- Prepend an event to the trace of a pass outcome. -/
def passPrepend (ev : TraceEvent K V) : PassOut K V → PassOut K V
  | .fail e d tr => .fail e d (ev :: tr)
  | .next d p he tr => .next d p he (ev :: tr)

/-- One round of `for task in tasks_to_execute` over the pass-start snapshot.
`d0` is the step data at the start of the pass (from which
`missing_dependencies` was computed), the remaining arguments are the
snapshot still to iterate, the live step data, the live pending list
(`tasks_to_execute`, rebound inside the loop) and the `has_executed` flag. -/
def runPass (d0 : StepData K V) :
    List (TaskSpec K V) → StepData K V → List (TaskSpec K V) → Bool → PassOut K V
  | [], d, p, he => .next d p he []
  | t :: rest, d, p, he =>
    if (missingOf d0 t).isEmpty then
      match depValues d t with
      | none => .fail .keyError d []
      | some args =>
        match t.run args with
        | none =>
          if t.ret = Ann.pyNone then
            passPrepend ⟨t, d, args, none⟩
              (runPass d0 rest d (p.filter (fun u => decide (u.id ≠ t.id))) true)
          else .fail (.injectionReturn t) d [⟨t, d, args, none⟩]
        | some v =>
          passPrepend ⟨t, d, args, some v⟩
            (runPass d0 rest (dictSet d t.ret v)
              (p.filter (fun u => decide (u.id ≠ t.id))) true)
    else runPass d0 rest d p he

/-- Result of `InitializedStep.execute`: the returned step data, or the
raised exception together with the observable state of `self.step_data` at
that moment.  Both carry the ghost trace of executed tasks. -/
inductive ExecResult (K V : Type) where
  | ok : StepData K V → List (TraceEvent K V) → ExecResult K V
  | err : StepError K V → StepData K V → List (TraceEvent K V) → ExecResult K V

/-- Prepend earlier events to the trace of a result. -/
def addTrace (evs : List (TraceEvent K V)) : ExecResult K V → ExecResult K V
  | .ok d tr => .ok d (evs ++ tr)
  | .err e d tr => .err e d (evs ++ tr)

/-- The ghost trace of a result. -/
def traceOf : ExecResult K V → List (TraceEvent K V)
  | .ok _ tr => tr
  | .err _ _ tr => tr

/-- Whether execution returned normally. -/
def isOk : ExecResult K V → Bool
  | .ok _ _ => true
  | .err _ _ _ => false

/-- The step data returned on success. -/
def resultData : ExecResult K V → Option (StepData K V)
  | .ok d _ => some d
  | .err _ _ _ => none

/-- The `while len(tasks_to_execute) > 0` loop of `InitializedStep.execute`,
with an explicit iteration budget.  Each iteration recomputes
`missing_dependencies` from the current step data, runs one `for` round over
the snapshot, and either recurses, raises the `ScheduleError` (whose payload
lists every still-pending task with its missing dependencies, as formatted
into the message by the source), or propagates an exception. -/
def execLoop : ℕ → StepData K V → List (TaskSpec K V) → ExecResult K V
  | _, d, [] => .ok d []
  | 0, d, _ :: _ => .err .outOfFuel d []
  | fuel + 1, d, t :: rest =>
    match runPass d (t :: rest) d (t :: rest) false with
    | .fail e dE tr => .err e dE tr
    | .next d2 p2 hasExec tr =>
      if hasExec then addTrace tr (execLoop fuel d2 p2)
      else
        .err (.schedule ((t :: rest).map (fun u => (u, missingOf d u)))) d2 tr

/-- The model of `InitializedStep.execute`: first `_task_dependencies`
(which raises an `InjectionError` if some `__init__` annotation is the
`None` object), then the scheduling loop.  The iteration budget
`tasks.length` is proved sufficient: every pass either removes a pending
task or raises. -/
def execute (tasks : List (TaskSpec K V)) (d : StepData K V) : ExecResult K V :=
  match badParamError tasks with
  | some (t, dep) => .err (.injectionInit t dep) d []
  | none => execLoop tasks.length d tasks

/-- One argument of the dict comprehension in `Workflow.initialize`: a
`None` argument is skipped, any other argument is stored under the `TypeKey`
of its runtime type (`typeOf`). -/
def seedStep (typeOf : V → K) (d : StepData K V) (a : Option V) : StepData K V :=
  match a with
  | none => d
  | some v => dictSet d (Ann.key (typeOf v)) v

/-- The model of `Workflow.initialize`:
`{type(data): data for data in args if data is not None}` — each non-`None`
argument keyed by its runtime type, in argument order, later entries
overwriting earlier ones. -/
def initWorkflowData (typeOf : V → K) (args : List (Option V)) : StepData K V :=
  args.foldl (seedStep typeOf) []

/-- Replay of one ghost event onto a step data: the dict write the source
performs after a task execution (`self.step_data[data_annotation] = data`
when the returned value is not `None`). -/
def applyEvent (d : StepData K V) (ev : TraceEvent K V) : StepData K V :=
  match ev.result with
  | some v => dictSet d ev.task.ret v
  | none => d

/-- The step data carried by a pass outcome. -/
def passData : PassOut K V → StepData K V
  | .fail _ d _ => d
  | .next d _ _ _ => d

/-- The events recorded by a pass outcome. -/
def passTrace : PassOut K V → List (TraceEvent K V)
  | .fail _ _ tr => tr
  | .next _ _ _ tr => tr

/-- The step data carried by a result (for an error, the observable state of
`self.step_data` when the exception was raised). -/
def dataOf : ExecResult K V → StepData K V
  | .ok d _ => d
  | .err _ d _ => d


/-- The value a task produces when constructed from step data `d`: the
injected dependency values are looked up in `d` and handed to `run`. -/
def resultOn (d : StepData K V) (t : TaskSpec K V) : Option V :=
  (depValues d t).bind t.run

/-- Lookup describing the collective writes of one pass under
write-freshness: the value of `k` after the pass is the output of the unique
ready task writing `k`, or the fallback (the value before the pass). -/
def writeLook (d0 : StepData K V) (l : List (TaskSpec K V)) (k : Ann K)
    (fb : Option V) : Option V :=
  match l.find? (fun t => decide (t.ret = k) && (resultOn d0 t).isSome) with
  | some t => resultOn d0 t
  | none => fb

/-- Extensional equality of step data: same keys mapped to the same
values. -/
def dictEquiv (d1 d2 : StepData K V) : Prop :=
  ∀ k, dictGet d1 k = dictGet d2 k

/-- Cyclic pair: `w2A` requires the key produced only by `w2B` and vice
versa (concrete instance over `ℕ` type keys and `ℕ` payloads). -/
def w2A : TaskSpec ℕ ℕ := ⟨0, [⟨"x", Ann.key 10⟩], Ann.key 11, fun _ => some 1⟩

/-- Second half of the cyclic pair. -/
def w2B : TaskSpec ℕ ℕ := ⟨1, [⟨"y", Ann.key 11⟩], Ann.key 10, fun _ => some 2⟩

/-- Producer of key `0` with value `1` (chain scenario, no dependencies). -/
def w3P : TaskSpec ℕ ℕ := ⟨0, [], Ann.key 0, fun _ => some 1⟩

/-- Consumer of key `0`, producer of key `1` (chain scenario). -/
def w3Q : TaskSpec ℕ ℕ := ⟨1, [⟨"a", Ann.key 0⟩], Ann.key 1, fun vs => some (vs.headD 0 + 1)⟩

/-- Consumer of key `1`, producer of key `2` (chain scenario). -/
def w3R : TaskSpec ℕ ℕ := ⟨2, [⟨"b", Ann.key 1⟩], Ann.key 2, fun vs => some (vs.headD 0 + 1)⟩

/-- Producer of key `0` (two-task chain used by several witnesses). -/
def w4P : TaskSpec ℕ ℕ := ⟨0, [], Ann.key 0, fun _ => some 1⟩

/-- Consumer of key `0`, producer of key `1`. -/
def w4Q : TaskSpec ℕ ℕ := ⟨1, [⟨"a", Ann.key 0⟩], Ann.key 1, fun vs => some (vs.headD 0 + 1)⟩

/-- Task with an `__init__` parameter `x` with no annotation: `inspect`
reports the `Parameter.empty` sentinel for it.  Its `execute` is annotated
`-> None` and returns `None`. -/
def w7task : TaskSpec ℕ ℕ := ⟨0, [⟨"x", Ann.empty⟩], Ann.pyNone, fun _ => none⟩

/-- Task whose `execute` is annotated `-> None` (so `get_return_type()` is
the `None` object, i.e. it declares no output) but which returns the value
`7`. -/
def w8task : TaskSpec ℕ ℕ := ⟨0, [], Ann.pyNone, fun _ => some 7⟩

/-- Task with no dependencies producing key `1` with value `5`. -/
def w9A : TaskSpec ℕ ℕ := ⟨0, [], Ann.key 1, fun _ => some 5⟩

/-- Task requiring key `2`, which nothing produces: stalls after `w9A` ran. -/
def w9B : TaskSpec ℕ ℕ := ⟨1, [⟨"x", Ann.key 2⟩], Ann.key 3, fun _ => some 9⟩

/-- Task overwriting the seeded key `0` with `5` within the first pass. -/
def c6A : TaskSpec ℕ ℕ := ⟨0, [], Ann.key 0, fun _ => some 5⟩

/-- Task reading key `0` (ready already at the start of the first pass) and
copying the value it was constructed with into key `1`. -/
def c6B : TaskSpec ℕ ℕ := ⟨1, [⟨"x", Ann.key 0⟩], Ann.key 1, fun vs => vs.head?⟩

/-- Task reading the seeded key `0` and writing the read value plus `10`
into key `1`. -/
def c5A : TaskSpec ℕ ℕ := ⟨0, [⟨"x", Ann.key 0⟩], Ann.key 1, fun vs => some (vs.headD 0 + 10)⟩

/-- Task overwriting the seeded key `0` with `99` (no dependencies). -/
def c5B : TaskSpec ℕ ℕ := ⟨1, [], Ann.key 0, fun _ => some 99⟩

/-- Producer of key `0` with value `1` (completeness witness). -/
def w1P : TaskSpec ℕ ℕ := ⟨0, [], Ann.key 0, fun _ => some 1⟩

/-- Consumer of key `0`, producer of key `1` (completeness witness). -/
def w1Q : TaskSpec ℕ ℕ := ⟨1, [⟨"a", Ann.key 0⟩], Ann.key 1, fun vs => some (vs.headD 0 + 1)⟩

/-- Independent producer of key `0` (order-invariance witness). -/
def c5P : TaskSpec ℕ ℕ := ⟨0, [], Ann.key 0, fun _ => some 1⟩

/-- Consumer of key `0` producing key `1` (order-invariance witness). -/
def c5Q : TaskSpec ℕ ℕ := ⟨1, [⟨"a", Ann.key 0⟩], Ann.key 1, fun vs => some (vs.headD 0 + 1)⟩

theorem dictGet_cons (p : Ann K × V) (d : StepData K V) (a : Ann K) :
    dictGet (p :: d) a = if p.1 = a then some p.2 else dictGet d a := by
  by_cases h : p.1 = a <;> simp [dictGet, List.find?_cons, h]

omit [DecidableEq K] in
theorem keysOf_cons (p : Ann K × V) (d : StepData K V) :
    keysOf (p :: d) = p.1 :: keysOf d := rfl

theorem dictGet_eq_none_iff (d : StepData K V) (k : Ann K) :
    dictGet d k = none ↔ k ∉ keysOf d := by
  induction d with
  | nil => simp [dictGet, keysOf]
  | cons p d ih =>
    by_cases h : p.1 = k
    · simp [dictGet_cons, keysOf_cons, h]
    · simp only [dictGet_cons, keysOf_cons, h, if_false, List.mem_cons]
      rw [ih]
      constructor
      · intro hk hc
        rcases hc with hc | hc
        · exact h hc.symm
        · exact hk hc
      · intro hk hc
        exact hk (Or.inr hc)

theorem dictGet_isSome_iff (d : StepData K V) (k : Ann K) :
    (dictGet d k).isSome = true ↔ k ∈ keysOf d := by
  constructor
  · intro hs
    by_contra hk
    rw [(dictGet_eq_none_iff d k).mpr hk] at hs
    simp at hs
  · intro hk
    cases h : dictGet d k with
    | none => exact absurd hk (by simpa using (dictGet_eq_none_iff d k).mp h)
    | some v => rfl

theorem dictGet_map_replace_ne (d : StepData K V) (k a : Ann K) (v : V)
    (hne : a ≠ k) :
    dictGet (d.map (fun p => if p.1 = k then (k, v) else p)) a = dictGet d a := by
  induction d with
  | nil => simp
  | cons p d ih =>
    by_cases h : p.1 = k
    · have hka : k ≠ a := fun hk => hne hk.symm
      have hpa : p.1 ≠ a := by rw [h]; exact hka
      simp [h, dictGet_cons, hka, hpa, ih]
    · by_cases hp : p.1 = a
      · simp [h, dictGet_cons, hp, hne]
      · simp [h, dictGet_cons, hp, ih]

theorem dictGet_map_replace_self (d : StepData K V) (k : Ann K) (v : V)
    (hmem : k ∈ keysOf d) :
    dictGet (d.map (fun p => if p.1 = k then (k, v) else p)) k = some v := by
  induction d with
  | nil => simp [keysOf] at hmem
  | cons p d ih =>
    by_cases h : p.1 = k
    · simp [h, dictGet_cons]
    · rw [keysOf_cons, List.mem_cons] at hmem
      rcases hmem with hmem | hmem
      · exact absurd hmem.symm h
      · have hpa : p.1 ≠ k := h
        simp [h, dictGet_cons, hpa, ih hmem]

theorem dictGet_append_single (d : StepData K V) (k a : Ann K) (v : V) :
    dictGet (d ++ [(k, v)]) a =
      if (dictGet d a).isSome then dictGet d a else if k = a then some v else none := by
  induction d with
  | nil => by_cases h : k = a <;> simp [dictGet, List.find?, h]
  | cons p d ih =>
    by_cases hp : p.1 = a
    · simp [List.cons_append, dictGet_cons, hp]
    · simp [List.cons_append, dictGet_cons, hp, ih]

theorem dictGet_dictSet (d : StepData K V) (k a : Ann K) (v : V) :
    dictGet (dictSet d k v) a = if a = k then some v else dictGet d a := by
  unfold dictSet
  by_cases hmem : k ∈ keysOf d
  · rw [if_pos hmem]
    by_cases h : a = k
    · subst h
      simp [dictGet_map_replace_self d a v hmem]
    · simp [h, dictGet_map_replace_ne d k a v h]
  · rw [if_neg hmem, dictGet_append_single]
    by_cases h : a = k
    · subst h
      have : dictGet d a = none := (dictGet_eq_none_iff d a).mpr hmem
      simp [this]
    · have hka : ¬ k = a := fun hk => h hk.symm
      by_cases hs : (dictGet d a).isSome
      · simp [hs, h]
      · simp only [hs, if_false, if_neg hka, if_neg h]
        rw [Option.not_isSome_iff_eq_none] at hs
        exact hs.symm

theorem dictGet_dictSet_self (d : StepData K V) (k : Ann K) (v : V) :
    dictGet (dictSet d k v) k = some v := by
  simp [dictGet_dictSet]

theorem dictGet_dictSet_ne (d : StepData K V) (k a : Ann K) (v : V)
    (hne : a ≠ k) : dictGet (dictSet d k v) a = dictGet d a := by
  simp [dictGet_dictSet, hne]

theorem mem_keysOf_dictSet (d : StepData K V) (k a : Ann K) (v : V) :
    a ∈ keysOf (dictSet d k v) ↔ a = k ∨ a ∈ keysOf d := by
  rw [← dictGet_isSome_iff, ← dictGet_isSome_iff, dictGet_dictSet]
  by_cases h : a = k <;> simp [h]

theorem keysOf_subset_dictSet (d : StepData K V) (k : Ann K) (v : V) :
    ∀ a ∈ keysOf d, a ∈ keysOf (dictSet d k v) := by
  intro a ha
  rw [mem_keysOf_dictSet]
  exact Or.inr ha

theorem self_mem_keysOf_dictSet (d : StepData K V) (k : Ann K) (v : V) :
    k ∈ keysOf (dictSet d k v) := by
  rw [mem_keysOf_dictSet]
  exact Or.inl rfl


omit [DecidableEq K] in
theorem passData_passPrepend (ev : TraceEvent K V) (o : PassOut K V) :
    passData (passPrepend ev o) = passData o := by
  cases o <;> rfl

omit [DecidableEq K] in
theorem passTrace_passPrepend (ev : TraceEvent K V) (o : PassOut K V) :
    passTrace (passPrepend ev o) = ev :: passTrace o := by
  cases o <;> rfl

theorem missingOf_isEmpty_iff (d : StepData K V) (t : TaskSpec K V) :
    (missingOf d t).isEmpty = true ↔ ∀ dep ∈ t.initParams, dep.ann ∈ keysOf d := by
  rw [List.isEmpty_iff, missingOf, List.filter_eq_nil_iff]
  constructor
  · intro h dep hdep
    have := h dep hdep
    simpa using this
  · intro h dep hdep
    simpa using h dep hdep

theorem decide_notMem_cons (a x : ℕ) (l : List ℕ) :
    decide (a ∉ x :: l) = (decide (a ≠ x) && decide (a ∉ l)) := by
  by_cases h1 : a = x <;> by_cases h2 : a ∈ l <;> simp [h1, h2]

/-- Complete characterisation of a pass round that returns normally: the
executed tasks are exactly the snapshot entries whose `missing_dependencies`
entry (computed from the pass-start data `d0`) is empty, in snapshot order;
the pending list has lost exactly the executed identities; `has_executed` is
raised iff some task executed; and no recorded event both returned `None`
and declared a non-`None` return annotation. -/
theorem runPass_next_spec (d0 : StepData K V) (snap : List (TaskSpec K V)) :
    ∀ (d : StepData K V) (p : List (TaskSpec K V)) (he : Bool)
      (d2 : StepData K V) (p2 : List (TaskSpec K V)) (he2 : Bool)
      (tr : List (TraceEvent K V)),
      runPass d0 snap d p he = .next d2 p2 he2 tr →
      tr.map (fun e => e.task) =
        snap.filter (fun t => (missingOf d0 t).isEmpty) ∧
      p2 = p.filter (fun u => decide (u.id ∉ tr.map (fun e => e.task.id))) ∧
      he2 = (he || !tr.isEmpty) ∧
      (∀ ev ∈ tr, ev.result = none → ev.task.ret = Ann.pyNone) := by
  induction snap with
  | nil =>
    intro d p he d2 p2 he2 tr h
    simp only [runPass, PassOut.next.injEq] at h
    obtain ⟨rfl, rfl, rfl, rfl⟩ := h
    exact ⟨rfl, by simp, by simp, by simp⟩
  | cons t rest ih =>
    intro d p he d2 p2 he2 tr h
    simp only [runPass] at h
    by_cases hr : (missingOf d0 t).isEmpty = true
    · rw [if_pos hr] at h
      cases hdv : depValues d t with
      | none =>
        rw [hdv] at h
        simp at h
      | some args =>
        rw [hdv] at h
        simp only at h
        cases hrun : t.run args with
        | none =>
          rw [hrun] at h
          simp only at h
          by_cases hret : t.ret = Ann.pyNone
          · rw [if_pos hret] at h
            cases hrec : runPass d0 rest d
                (p.filter (fun u => decide (u.id ≠ t.id))) true with
            | fail e dE trE => rw [hrec] at h; simp [passPrepend] at h
            | next dr pr her trr =>
              rw [hrec] at h
              simp only [passPrepend, PassOut.next.injEq] at h
              obtain ⟨rfl, rfl, rfl, rfl⟩ := h
              obtain ⟨ih1, ih2, ih3, ih4⟩ := ih d
                (p.filter (fun u => decide (u.id ≠ t.id))) true dr pr her trr hrec
              refine ⟨?_, ?_, ?_, ?_⟩
              · rw [@List.filter_cons_of_pos _ (fun u => (missingOf d0 u).isEmpty) t rest hr]
                simpa using ih1
              · rw [ih2, List.filter_filter]
                refine List.filter_congr (fun u _ => ?_)
                simp only [List.map_cons]
                rw [decide_notMem_cons]
                exact (Bool.and_comm _ _)
              · rw [ih3]
                simp
              · intro ev hev
                rcases List.mem_cons.mp hev with hev | hev
                · subst hev; intro _; exact hret
                · exact ih4 ev hev
          · rw [if_neg hret] at h
            simp at h
        | some v =>
          rw [hrun] at h
          simp only at h
          cases hrec : runPass d0 rest (dictSet d t.ret v)
              (p.filter (fun u => decide (u.id ≠ t.id))) true with
          | fail e dE trE => rw [hrec] at h; simp [passPrepend] at h
          | next dr pr her trr =>
            rw [hrec] at h
            simp only [passPrepend, PassOut.next.injEq] at h
            obtain ⟨rfl, rfl, rfl, rfl⟩ := h
            obtain ⟨ih1, ih2, ih3, ih4⟩ := ih (dictSet d t.ret v)
              (p.filter (fun u => decide (u.id ≠ t.id))) true dr pr her trr hrec
            refine ⟨?_, ?_, ?_, ?_⟩
            · rw [@List.filter_cons_of_pos _ (fun u => (missingOf d0 u).isEmpty) t rest hr]
              simpa using ih1
            · rw [ih2, List.filter_filter]
              refine List.filter_congr (fun u _ => ?_)
              simp only [List.map_cons]
              rw [decide_notMem_cons]
              exact (Bool.and_comm _ _)
            · rw [ih3]
              simp
            · intro ev hev
              rcases List.mem_cons.mp hev with hev | hev
              · subst hev; simp
              · exact ih4 ev hev
    · rw [if_neg hr] at h
      obtain ⟨ih1, ih2, ih3, ih4⟩ := ih d p he d2 p2 he2 tr h
      refine ⟨?_, ih2, ih3, ih4⟩
      rw [@List.filter_cons_of_neg _ (fun u => (missingOf d0 u).isEmpty) t rest hr]
      exact ih1

/-- Properties of any pass outcome: every recorded event was ready with
respect to the pass-start data `d0`, was constructed from the live data
recorded in the event, and ran on exactly the recorded arguments; the
carried step data is the replay of the recorded writes onto the incoming
live data; and dict keys only ever accumulate. -/
theorem runPass_events_spec (d0 : StepData K V) (snap : List (TaskSpec K V)) :
    ∀ (d : StepData K V) (p : List (TaskSpec K V)) (he : Bool),
      (∀ ev ∈ passTrace (runPass d0 snap d p he),
        (missingOf d0 ev.task).isEmpty = true ∧
        depValues ev.dataAt ev.task = some ev.args ∧
        ev.result = ev.task.run ev.args ∧
        (∀ a ∈ keysOf d, a ∈ keysOf ev.dataAt)) ∧
      passData (runPass d0 snap d p he) =
        (passTrace (runPass d0 snap d p he)).foldl applyEvent d ∧
      (∀ a ∈ keysOf d, a ∈ keysOf (passData (runPass d0 snap d p he))) := by
  induction snap with
  | nil =>
    intro d p he
    refine ⟨by simp [runPass, passTrace], by simp [runPass, passTrace, passData], ?_⟩
    simp [runPass, passData]
  | cons t rest ih =>
    intro d p he
    simp only [runPass]
    by_cases hr : (missingOf d0 t).isEmpty = true
    · rw [if_pos hr]
      cases hdv : depValues d t with
      | none =>
        simp only [passTrace, passData]
        exact ⟨by simp, by simp, by simp⟩
      | some args =>
        simp only
        cases hrun : t.run args with
        | none =>
          simp only
          by_cases hret : t.ret = Ann.pyNone
          · rw [if_pos hret]
            rw [passTrace_passPrepend, passData_passPrepend]
            obtain ⟨ihev, ihdata, ihkeys⟩ :=
              ih d (p.filter (fun u => decide (u.id ≠ t.id))) true
            refine ⟨?_, ?_, ihkeys⟩
            · intro ev hev
              rcases List.mem_cons.mp hev with hev | hev
              · subst hev
                exact ⟨hr, hdv, hrun.symm, fun a ha => ha⟩
              · exact ihev ev hev
            · rw [ihdata]
              rfl
          · rw [if_neg hret]
            simp only [passTrace, passData]
            refine ⟨?_, by simp [applyEvent], by simp⟩
            intro ev hev
            rcases List.mem_cons.mp hev with hev | hev
            · subst hev
              exact ⟨hr, hdv, hrun.symm, fun a ha => ha⟩
            · simp at hev
        | some v =>
          simp only
          rw [passTrace_passPrepend, passData_passPrepend]
          obtain ⟨ihev, ihdata, ihkeys⟩ :=
            ih (dictSet d t.ret v) (p.filter (fun u => decide (u.id ≠ t.id))) true
          have hsub : ∀ a ∈ keysOf d, a ∈ keysOf (dictSet d t.ret v) :=
            keysOf_subset_dictSet d t.ret v
          refine ⟨?_, ?_, fun a ha => ihkeys a (hsub a ha)⟩
          · intro ev hev
            rcases List.mem_cons.mp hev with hev | hev
            · subst hev
              exact ⟨hr, hdv, hrun.symm, fun a ha => ha⟩
            · obtain ⟨e1, e2, e3, e4⟩ := ihev ev hev
              exact ⟨e1, e2, e3, fun a ha => e4 a (hsub a ha)⟩
          · rw [ihdata]
            rfl
    · rw [if_neg hr]
      exact ih d p he

/-- If no snapshot entry is ready, the pass changes nothing: this is the
stalled situation guarded by `has_executed`. -/
theorem runPass_no_ready (d0 : StepData K V) (snap : List (TaskSpec K V))
    (hnone : ∀ t ∈ snap, (missingOf d0 t).isEmpty = false) :
    ∀ (d : StepData K V) (p : List (TaskSpec K V)) (he : Bool),
      runPass d0 snap d p he = .next d p he [] := by
  induction snap with
  | nil => intro d p he; rfl
  | cons t rest ih =>
    intro d p he
    have ht : (missingOf d0 t).isEmpty = false := hnone t (List.mem_cons_self t rest)
    simp only [runPass, ht]
    exact ih (fun u hu => hnone u (List.mem_cons_of_mem t hu)) d p he

/-- A pass that set `has_executed` strictly shrinks the pending list
(provided the snapshot identities occur in the pending list, as they do when
the pass starts). -/
theorem runPass_shrink (d0 : StepData K V) (snap : List (TaskSpec K V))
    (d : StepData K V) (p : List (TaskSpec K V))
    (hsub : ∀ t ∈ snap, ∃ u ∈ p, u.id = t.id)
    (d2 : StepData K V) (p2 : List (TaskSpec K V)) (tr : List (TraceEvent K V))
    (h : runPass d0 snap d p false = .next d2 p2 true tr) :
    p2.length < p.length := by
  obtain ⟨h1, h2, h3, _⟩ := runPass_next_spec d0 snap d p false d2 p2 true tr h
  have htr : tr ≠ [] := by
    intro hnil
    rw [hnil] at h3
    simp at h3
  obtain ⟨ev, hev⟩ := List.exists_mem_of_ne_nil tr htr
  have hmem : ev.task ∈ snap := by
    have : ev.task ∈ tr.map (fun e => e.task) := List.mem_map_of_mem _ hev
    rw [h1] at this
    exact List.mem_of_mem_filter this
  obtain ⟨u, hu, hid⟩ := hsub ev.task hmem
  rw [h2]
  apply List.length_filter_lt_length_iff_exists.mpr
  refine ⟨u, hu, ?_⟩
  simp only [decide_eq_true_eq, Decidable.not_not]
  rw [hid]
  exact List.mem_map_of_mem _ hev

omit [DecidableEq K] in
theorem traceOf_addTrace (evs : List (TraceEvent K V)) (r : ExecResult K V) :
    traceOf (addTrace evs r) = evs ++ traceOf r := by
  cases r <;> rfl

omit [DecidableEq K] in
theorem dataOf_addTrace (evs : List (TraceEvent K V)) (r : ExecResult K V) :
    dataOf (addTrace evs r) = dataOf r := by
  cases r <;> rfl

omit [DecidableEq K] in
theorem isOk_addTrace (evs : List (TraceEvent K V)) (r : ExecResult K V) :
    isOk (addTrace evs r) = isOk r := by
  cases r <;> rfl

/-- A pass can only raise the two exceptions of the loop body (`KeyError` on
dict subscription or the `InjectionError` on a `None` return); never the
budget marker. -/
theorem runPass_fail_kind (d0 : StepData K V) (snap : List (TaskSpec K V)) :
    ∀ (d : StepData K V) (p : List (TaskSpec K V)) (he : Bool)
      (e : StepError K V) (dE : StepData K V) (trE : List (TraceEvent K V)),
      runPass d0 snap d p he = .fail e dE trE →
      e = .keyError ∨ ∃ t, e = .injectionReturn t := by
  induction snap with
  | nil =>
    intro d p he e dE trE h
    simp [runPass] at h
  | cons t rest ih =>
    intro d p he e dE trE h
    simp only [runPass] at h
    by_cases hr : (missingOf d0 t).isEmpty = true
    · rw [if_pos hr] at h
      cases hdv : depValues d t with
      | none =>
        rw [hdv] at h
        simp only [PassOut.fail.injEq] at h
        exact Or.inl h.1.symm
      | some args =>
        rw [hdv] at h
        simp only at h
        cases hrun : t.run args with
        | none =>
          rw [hrun] at h
          simp only at h
          by_cases hret : t.ret = Ann.pyNone
          · rw [if_pos hret] at h
            cases hrec : runPass d0 rest d
                (p.filter (fun u => decide (u.id ≠ t.id))) true with
            | fail e2 d2 tr2 =>
              rw [hrec] at h
              simp only [passPrepend, PassOut.fail.injEq] at h
              obtain ⟨rfl, _, _⟩ := h
              exact ih d (p.filter (fun u => decide (u.id ≠ t.id))) true e2 d2 tr2 hrec
            | next d2 p2 he2 tr2 =>
              rw [hrec] at h
              simp [passPrepend] at h
          · rw [if_neg hret] at h
            simp only [PassOut.fail.injEq] at h
            exact Or.inr ⟨t, h.1.symm⟩
        | some v =>
          rw [hrun] at h
          simp only at h
          cases hrec : runPass d0 rest (dictSet d t.ret v)
              (p.filter (fun u => decide (u.id ≠ t.id))) true with
          | fail e2 d2 tr2 =>
            rw [hrec] at h
            simp only [passPrepend, PassOut.fail.injEq] at h
            obtain ⟨rfl, _, _⟩ := h
            exact ih (dictSet d t.ret v)
              (p.filter (fun u => decide (u.id ≠ t.id))) true e2 d2 tr2 hrec
          | next d2 p2 he2 tr2 =>
            rw [hrec] at h
            simp [passPrepend] at h
    · rw [if_neg hr] at h
      exact ih d p he e dE trE h

/-- Invariants of the whole scheduling loop, for any outcome: the carried
step data is the replay of the ghost trace onto the incoming data; every
recorded execution was constructed from the recorded live data, with every
declared dependency present in that data at construction time; keys only
accumulate; and in a normal return no executed task both returned `None` and
declared a non-`None` return annotation. -/
theorem execLoop_char (fuel : ℕ) :
    ∀ (d : StepData K V) (p : List (TaskSpec K V)),
      dataOf (execLoop fuel d p) = (traceOf (execLoop fuel d p)).foldl applyEvent d ∧
      (∀ ev ∈ traceOf (execLoop fuel d p),
        depValues ev.dataAt ev.task = some ev.args ∧
        ev.result = ev.task.run ev.args ∧
        (∀ dep ∈ ev.task.initParams, dep.ann ∈ keysOf ev.dataAt)) ∧
      (∀ a ∈ keysOf d, a ∈ keysOf (dataOf (execLoop fuel d p))) ∧
      (isOk (execLoop fuel d p) = true →
        ∀ ev ∈ traceOf (execLoop fuel d p),
          ev.result = none → ev.task.ret = Ann.pyNone) := by
  induction fuel with
  | zero =>
    intro d p
    cases p with
    | nil => exact ⟨rfl, by simp [execLoop, traceOf], by simp [execLoop, dataOf], by simp [execLoop, traceOf]⟩
    | cons t rest =>
      exact ⟨rfl, by simp [execLoop, traceOf], by simp [execLoop, dataOf], by simp [execLoop, isOk]⟩
  | succ n ih =>
    intro d p
    cases p with
    | nil => exact ⟨rfl, by simp [execLoop, traceOf], by simp [execLoop, dataOf], by simp [execLoop, traceOf]⟩
    | cons t rest =>
      have hspec := runPass_events_spec d (t :: rest) d (t :: rest) false
      cases ho : runPass d (t :: rest) d (t :: rest) false with
      | fail e dE trE =>
        rw [ho] at hspec
        simp only [passData, passTrace] at hspec
        obtain ⟨hev, hdata, hkeys⟩ := hspec
        have hres : execLoop (n + 1) d (t :: rest) = .err e dE trE := by
          simp only [execLoop, ho]
        rw [hres]
        simp only [dataOf, traceOf, isOk]
        refine ⟨hdata, ?_, hkeys, by simp⟩
        intro ev hmem
        obtain ⟨e1, e2, e3, e4⟩ := hev ev hmem
        refine ⟨e2, e3, ?_⟩
        intro dep hdep
        have : dep.ann ∈ keysOf d := by
          rw [missingOf_isEmpty_iff] at e1
          exact e1 dep hdep
        exact e4 dep.ann this
      | next d2 p2 heb tr =>
        rw [ho] at hspec
        simp only [passData, passTrace] at hspec
        obtain ⟨hev, hdata, hkeys⟩ := hspec
        obtain ⟨hn1, hn2, hn3, hn4⟩ :=
          runPass_next_spec d (t :: rest) d (t :: rest) false d2 p2 heb tr ho
        cases heb with
        | true =>
          have hres : execLoop (n + 1) d (t :: rest) =
              addTrace tr (execLoop n d2 p2) := by
            simp only [execLoop, ho]
            rfl
          rw [hres]
          obtain ⟨ihdata, ihev, ihkeys, ihok⟩ := ih d2 p2
          rw [traceOf_addTrace, dataOf_addTrace, isOk_addTrace]
          refine ⟨?_, ?_, ?_, ?_⟩
          · rw [List.foldl_append, ← hdata, ihdata]
          · intro ev hmem
            rcases List.mem_append.mp hmem with hmem | hmem
            · obtain ⟨e1, e2, e3, e4⟩ := hev ev hmem
              refine ⟨e2, e3, ?_⟩
              intro dep hdep
              have : dep.ann ∈ keysOf d := by
                rw [missingOf_isEmpty_iff] at e1
                exact e1 dep hdep
              exact e4 dep.ann this
            · exact ihev ev hmem
          · intro a ha
            exact ihkeys a (hkeys a ha)
          · intro hok ev hmem
            rcases List.mem_append.mp hmem with hmem | hmem
            · exact hn4 ev hmem
            · exact ihok hok ev hmem
        | false =>
          have hres : execLoop (n + 1) d (t :: rest) =
              .err (.schedule ((t :: rest).map (fun u => (u, missingOf d u)))) d2 tr := by
            simp only [execLoop, ho]
            rfl
          rw [hres]
          simp only [dataOf, traceOf, isOk]
          refine ⟨hdata, ?_, hkeys, by simp⟩
          intro ev hmem
          obtain ⟨e1, e2, e3, e4⟩ := hev ev hmem
          refine ⟨e2, e3, ?_⟩
          intro dep hdep
          have : dep.ann ∈ keysOf d := by
            rw [missingOf_isEmpty_iff] at e1
            exact e1 dep hdep
          exact e4 dep.ann this

/-- If the iteration budget is at least the number of pending tasks the
budget marker is never reached: each pass either strictly shrinks the
pending list or raises.  This is the termination argument of the `while`
loop. -/
theorem execLoop_fuel_enough (fuel : ℕ) :
    ∀ (d : StepData K V) (p : List (TaskSpec K V)), p.length ≤ fuel →
      ∀ (dE : StepData K V) (trE : List (TraceEvent K V)),
        execLoop fuel d p ≠ .err .outOfFuel dE trE := by
  induction fuel with
  | zero =>
    intro d p hlen dE trE
    cases p with
    | nil => simp [execLoop]
    | cons t rest => simp at hlen
  | succ n ih =>
    intro d p hlen dE trE
    cases p with
    | nil => simp [execLoop]
    | cons t rest =>
      cases ho : runPass d (t :: rest) d (t :: rest) false with
      | fail e d2 tr2 =>
        have hres : execLoop (n + 1) d (t :: rest) = .err e d2 tr2 := by
          simp only [execLoop, ho]
        rw [hres]
        intro hcon
        rcases runPass_fail_kind d (t :: rest) d (t :: rest) false e d2 tr2 ho with
          hk | ⟨u, hk⟩ <;> (rw [hk] at hcon; simp at hcon)
      | next d2 p2 heb tr =>
        cases heb with
        | true =>
          have hres : execLoop (n + 1) d (t :: rest) =
              addTrace tr (execLoop n d2 p2) := by
            simp only [execLoop, ho]
            rfl
          rw [hres]
          have hshrink : p2.length < (t :: rest).length :=
            runPass_shrink d (t :: rest) d (t :: rest)
              (fun u hu => ⟨u, hu, rfl⟩) d2 p2 tr ho
          have hlen2 : p2.length ≤ n := by omega
          intro hcon
          cases hrec : execLoop n d2 p2 with
          | ok d3 tr3 => rw [hrec] at hcon; simp [addTrace] at hcon
          | err e3 d3 tr3 =>
            rw [hrec] at hcon
            simp only [addTrace, ExecResult.err.injEq] at hcon
            obtain ⟨rfl, rfl, _⟩ := hcon
            exact ih d2 p2 hlen2 d3 tr3 hrec
        | false =>
          have hres : execLoop (n + 1) d (t :: rest) =
              .err (.schedule ((t :: rest).map (fun u => (u, missingOf d u)))) d2 tr := by
            simp only [execLoop, ho]
            rfl
          rw [hres]
          simp

theorem keysOf_subset_foldl_applyEvent (tr : List (TraceEvent K V)) :
    ∀ (d : StepData K V) (a : Ann K), a ∈ keysOf d →
      a ∈ keysOf (tr.foldl applyEvent d) := by
  induction tr with
  | nil => intro d a ha; exact ha
  | cons e rest ih =>
    intro d a ha
    rw [List.foldl_cons]
    apply ih
    unfold applyEvent
    cases e.result with
    | none => exact ha
    | some v => exact keysOf_subset_dictSet d e.task.ret v a ha

theorem mem_keysOf_foldl_applyEvent (tr : List (TraceEvent K V)) :
    ∀ (d : StepData K V), ∀ ev ∈ tr, ∀ v, ev.result = some v →
      ev.task.ret ∈ keysOf (tr.foldl applyEvent d) := by
  induction tr with
  | nil => intro d ev hmem; cases hmem
  | cons e rest ih =>
    intro d ev hmem v hres
    rw [List.foldl_cons]
    rcases List.mem_cons.mp hmem with rfl | hmem
    · apply keysOf_subset_foldl_applyEvent
      unfold applyEvent
      rw [hres]
      exact self_mem_keysOf_dictSet d ev.task.ret v
    · exact ih (applyEvent d e) ev hmem v hres

/-- C2: if a fixpoint pass would execute zero tasks while the pending list is
non-empty (every pending task has a non-empty missing-dependency list), the
loop raises the `ScheduleError` whose payload names every still-pending task
together with exactly the dependencies it is still missing. -/
theorem stall_raises_schedule_error (fuel : ℕ) (d : StepData K V)
    (p : List (TaskSpec K V)) (hne : p ≠ [])
    (hstuck : ∀ t ∈ p, missingOf d t ≠ []) :
    execLoop (fuel + 1) d p =
      .err (.schedule (p.map (fun t => (t, missingOf d t)))) d [] := by
  cases p with
  | nil => exact absurd rfl hne
  | cons t rest =>
    have hnone : ∀ u ∈ t :: rest, (missingOf d u).isEmpty = false := by
      intro u hu
      cases hml : missingOf d u with
      | nil => exact absurd hml (hstuck u hu)
      | cons a l => rfl
    have ho := runPass_no_ready d (t :: rest) hnone d (t :: rest) false
    simp only [execLoop, ho]
    rfl

/-- Witness for C2: the two-task dependency cycle stalls immediately and the
raised `ScheduleError` names both tasks with their unmet dependencies. -/
theorem stall_raises_schedule_error_witness :
    execLoop 2 ([] : StepData ℕ ℕ) [w2A, w2B] =
      .err (.schedule [(w2A, [⟨"x", Ann.key 10⟩]), (w2B, [⟨"y", Ann.key 11⟩])])
        [] [] := by
  have h := stall_raises_schedule_error 1 ([] : StepData ℕ ℕ) [w2A, w2B]
    (by simp)
    (by
      intro t ht
      rcases List.mem_cons.mp ht with rfl | ht
      · decide
      · rcases List.mem_cons.mp ht with rfl | ht
        · decide
        · cases ht)
  exact h

/-- C3: every pass of the scheduling loop that sets `has_executed` strictly
shrinks the pending list; the iteration budget suffices whenever it is at
least the pending count; and in particular `execute` (budget
`tasks.length`) never exhausts its budget — no input causes an infinite
loop. -/
theorem scheduling_loop_terminates :
    (∀ (d : StepData K V) (p : List (TaskSpec K V)) (d2 : StepData K V)
        (p2 : List (TaskSpec K V)) (tr : List (TraceEvent K V)),
        runPass d p d p false = .next d2 p2 true tr → p2.length < p.length) ∧
    (∀ (fuel : ℕ) (d : StepData K V) (p : List (TaskSpec K V)),
        p.length ≤ fuel → ∀ (dE : StepData K V) (trE : List (TraceEvent K V)),
        execLoop fuel d p ≠ .err .outOfFuel dE trE) ∧
    (∀ (tasks : List (TaskSpec K V)) (d dE : StepData K V)
        (trE : List (TraceEvent K V)),
        execute tasks d ≠ .err .outOfFuel dE trE) := by
  refine ⟨?_, execLoop_fuel_enough, ?_⟩
  · intro d p d2 p2 tr h
    exact runPass_shrink d p d p (fun u hu => ⟨u, hu, rfl⟩) d2 p2 tr h
  · intro tasks d dE trE
    unfold execute
    cases hb : badParamError tasks with
    | some pr =>
      cases pr with
      | mk t dep => simp
    | none => exact execLoop_fuel_enough tasks.length d tasks le_rfl dE trE

/-- Witness for C3: in the three-task chain registered in reverse order the
first pass executes only the producer, strictly shrinking pending from three
tasks to two, and `execute` does not exhaust its budget there. -/
theorem scheduling_loop_terminates_witness :
    ([w3R, w3Q] : List (TaskSpec ℕ ℕ)).length < [w3R, w3Q, w3P].length ∧
    execute [w3R, w3Q, w3P] ([] : StepData ℕ ℕ) ≠ .err .outOfFuel [] [] := by
  constructor
  · exact scheduling_loop_terminates.1 [] [w3R, w3Q, w3P] [(Ann.key 0, 1)]
      [w3R, w3Q] [⟨w3P, [], [], some 1⟩] rfl
  · exact scheduling_loop_terminates.2.2 [w3R, w3Q, w3P] [] [] []

/-- C4: in every successful step execution, every declared dependency of a
task is present in the step data at the moment the task object is
constructed. -/
theorem deps_present_at_construction (tasks : List (TaskSpec K V))
    (d dF : StepData K V) (tr : List (TraceEvent K V))
    (hok : execute tasks d = .ok dF tr) :
    ∀ ev ∈ tr, ∀ dep ∈ ev.task.initParams, dep.ann ∈ keysOf ev.dataAt := by
  unfold execute at hok
  cases hb : badParamError tasks with
  | some pr =>
    rw [hb] at hok
    cases pr with
    | mk t dep => simp at hok
  | none =>
    rw [hb] at hok
    have hok2 : execLoop tasks.length d tasks = .ok dF tr := hok
    obtain ⟨_, hev, _, _⟩ := execLoop_char tasks.length d tasks
    rw [hok2] at hev
    simp only [traceOf] at hev
    intro ev hmem dep hdep
    exact (hev ev hmem).2.2 dep hdep

/-- Witness for C4: in the two-task chain, the consumer is constructed only
once key `0` is present in the step data. -/
theorem deps_present_at_construction_witness :
    Ann.key 0 ∈ keysOf ([(Ann.key 0, 1), (Ann.key 1, 2)].take 1 : StepData ℕ ℕ) := by
  have h := deps_present_at_construction [w4P, w4Q] []
    [(Ann.key 0, 1), (Ann.key 1, 2)]
    [⟨w4P, [], [], some 1⟩, ⟨w4Q, [(Ann.key 0, 1)], [1], some 2⟩] rfl
  exact h ⟨w4Q, [(Ann.key 0, 1)], [1], some 2⟩
    (List.mem_cons_of_mem _ (List.mem_cons_self _ _))
    ⟨"a", Ann.key 0⟩ (List.mem_singleton.mpr rfl)

/-- C7 (divergence record): a task whose `__init__` parameter has *no*
annotation does not raise an `InjectionError` — the `Parameter.empty`
sentinel is not the `None` object, so `_task_dependencies` accepts it as a
dependency that can never be satisfied, and execution fails with the
scheduling-stall `ScheduleError` instead. -/
theorem unannotated_param_stalls :
    execute [w7task] ([] : StepData ℕ ℕ) =
      .err (.schedule [(w7task, [⟨"x", Ann.empty⟩])]) [] [] := rfl

/-- C8 (divergence record): a task that returns a value while its `execute`
is annotated `-> None` is not rejected: the value is silently stored under
the `None` key and the step succeeds, although the source's own
`InjectionError` message describes exactly this situation. -/
theorem undeclared_return_silently_stored :
    execute [w8task] ([] : StepData ℕ ℕ) =
      .ok [(Ann.pyNone, 7)] [⟨w8task, [], [], some 7⟩] := rfl

/-- C9: when a step execution stalls with a `ScheduleError`, the observable
step data is exactly the replay of every completed task execution onto the
starting data — nothing is rolled back — and every output written by an
earlier pass is still present. -/
theorem stall_preserves_completed_work (tasks : List (TaskSpec K V))
    (d dE : StepData K V)
    (stuck : List (TaskSpec K V × List (TaskDependency K)))
    (tr : List (TraceEvent K V))
    (herr : execute tasks d = .err (.schedule stuck) dE tr) :
    dE = tr.foldl applyEvent d ∧
    (∀ ev ∈ tr, ∀ v, ev.result = some v → ev.task.ret ∈ keysOf dE) := by
  unfold execute at herr
  cases hb : badParamError tasks with
  | some pr =>
    rw [hb] at herr
    cases pr with
    | mk t dep => simp at herr
  | none =>
    rw [hb] at herr
    have herr2 : execLoop tasks.length d tasks = .err (.schedule stuck) dE tr := herr
    obtain ⟨hdata, _, _, _⟩ := execLoop_char tasks.length d tasks
    rw [herr2] at hdata
    simp only [dataOf, traceOf] at hdata
    refine ⟨hdata, ?_⟩
    intro ev hmem v hres
    rw [hdata]
    exact mem_keysOf_foldl_applyEvent tr d ev hmem v hres

/-- Witness for C9: after `w9A` completed its pass and `w9B` stalls, the
carried data is the replay of `w9A`'s write and key `1` is still present. -/
theorem stall_preserves_completed_work_witness :
    ([(Ann.key 1, 5)] : StepData ℕ ℕ) =
      [⟨w9A, [], [], some 5⟩].foldl applyEvent ([] : StepData ℕ ℕ) ∧
    Ann.key 1 ∈ keysOf ([(Ann.key 1, 5)] : StepData ℕ ℕ) := by
  have h := stall_preserves_completed_work [w9A, w9B] [] [(Ann.key 1, 5)]
    [(w9B, [⟨"x", Ann.key 2⟩])] [⟨w9A, [], [], some 5⟩] rfl
  exact ⟨h.1, h.2 ⟨w9A, [], [], some 5⟩ (List.mem_singleton.mpr rfl) 5 rfl⟩

theorem dictGet_foldl_seedStep (typeOf : V → K) :
    ∀ (args : List (Option V)) (d : StepData K V) (c : K),
      dictGet (args.foldl (seedStep typeOf) d) (Ann.key c) =
        (match ((args.filterMap id).filter
            (fun v => decide (typeOf v = c))).getLast? with
         | some v => some v
         | none => dictGet d (Ann.key c)) := by
  intro args
  induction args with
  | nil => intro d c; rfl
  | cons a rest ih =>
    intro d c
    cases a with
    | none => simpa using ih d c
    | some v =>
      simp only [List.foldl_cons, seedStep, List.filterMap_cons, id_eq]
      by_cases hp : typeOf v = c
      · rw [List.filter_cons_of_pos (by simpa using hp)]
        cases hrf : (rest.filterMap id).filter (fun w => decide (typeOf w = c)) with
        | nil =>
          rw [ih, hrf]
          simp only [List.getLast?_singleton]
          have : Ann.key c = Ann.key (typeOf v) := by rw [hp]
          rw [this, dictGet_dictSet_self]
          rfl
        | cons w ws =>
          rw [ih, hrf, List.getLast?_cons_cons]
          cases hgl : (w :: ws).getLast? with
          | none =>
            exact absurd (List.getLast?_eq_none_iff.mp hgl) (List.cons_ne_nil w ws)
          | some u => rfl
      · rw [List.filter_cons_of_neg (by simpa using hp)]
        rw [ih]
        have hne : Ann.key c ≠ Ann.key (typeOf v) := by
          intro hcon
          exact hp (by injection hcon with hcv; exact hcv.symm)
        rw [dictGet_dictSet_ne d (Ann.key (typeOf v)) (Ann.key c) v hne]

/-- C10: `Workflow.initialize` keys each seed value by its runtime type,
silently discards every `None` argument, and on duplicate runtime types
keeps the value of the later argument: the stored value for type `c` is the
last non-`None` argument of type `c`. -/
theorem workflow_seed_semantics (typeOf : V → K) (args : List (Option V)) (c : K) :
    dictGet (initWorkflowData typeOf args) (Ann.key c) =
      ((args.filterMap id).filter (fun v => decide (typeOf v = c))).getLast? := by
  unfold initWorkflowData
  rw [dictGet_foldl_seedStep]
  cases hg : ((args.filterMap id).filter (fun v => decide (typeOf v = c))).getLast? with
  | none => simp [dictGet]
  | some v => rfl

/-- When the pending identities are distinct (as Python class identities
are), one pass splits the pending list into the executed ready tasks and the
not-ready remainder: their identities together are a permutation of the
incoming pending identities. -/
theorem pass_partition (d : StepData K V) (p : List (TaskSpec K V))
    (hnodup : (p.map (fun u => u.id)).Nodup)
    (d2 : StepData K V) (p2 : List (TaskSpec K V)) (heb : Bool)
    (tr : List (TraceEvent K V))
    (h : runPass d p d p false = .next d2 p2 heb tr) :
    (tr.map (fun e => e.task.id) ++ p2.map (fun u => u.id)).Perm
      (p.map (fun u => u.id)) := by
  obtain ⟨htr, hp2, _, _⟩ := runPass_next_spec d p d p false d2 p2 heb tr h
  have htrid : tr.map (fun e => e.task.id) =
      (p.filter (fun t => (missingOf d t).isEmpty)).map (fun u => u.id) := by
    rw [← htr, List.map_map]
    rfl
  have hpoint : ∀ u ∈ p,
      (decide (u.id ∉ tr.map (fun e => e.task.id))) =
        !((missingOf d u).isEmpty) := by
    intro u hu
    by_cases hready : (missingOf d u).isEmpty = true
    · have : u.id ∈ tr.map (fun e => e.task.id) := by
        rw [htrid]
        exact List.mem_map_of_mem _ (List.mem_filter.mpr ⟨hu, hready⟩)
      simp [this, hready]
    · have : u.id ∉ tr.map (fun e => e.task.id) := by
        rw [htrid]
        intro hcon
        obtain ⟨w, hw, hwid⟩ := List.mem_map.mp hcon
        have hwp : w ∈ p := List.mem_of_mem_filter hw
        have : w = u := List.inj_on_of_nodup_map hnodup hwp hu hwid
        subst this
        exact hready (List.mem_filter.mp hw).2
      simp [this]
      simpa using hready
  have hp2b : p2 = p.filter (fun u => !((missingOf d u).isEmpty)) := by
    rw [hp2]
    exact List.filter_congr hpoint
  rw [htrid, hp2b, ← List.map_append]
  exact (List.filter_append_perm _ p).map (fun u => u.id)

/-- In a normal return of the scheduling loop, the identities of the
executed tasks are a permutation of the identities of the initially pending
tasks (given distinct identities): every pending task ran, none twice. -/
theorem execLoop_ok_trace_perm (fuel : ℕ) :
    ∀ (d : StepData K V) (p : List (TaskSpec K V)) (dF : StepData K V)
      (tr : List (TraceEvent K V)),
      (p.map (fun u => u.id)).Nodup →
      execLoop fuel d p = .ok dF tr →
      (tr.map (fun e => e.task.id)).Perm (p.map (fun u => u.id)) := by
  induction fuel with
  | zero =>
    intro d p dF tr hnodup h
    cases p with
    | nil =>
      simp only [execLoop, ExecResult.ok.injEq] at h
      rw [← h.2]
      rfl
    | cons t rest => simp [execLoop] at h
  | succ n ih =>
    intro d p dF tr hnodup h
    cases p with
    | nil =>
      simp only [execLoop, ExecResult.ok.injEq] at h
      rw [← h.2]
      rfl
    | cons t rest =>
      cases ho : runPass d (t :: rest) d (t :: rest) false with
      | fail e dE trE =>
        have hres : execLoop (n + 1) d (t :: rest) = .err e dE trE := by
          simp only [execLoop, ho]
        rw [hres] at h
        cases h
      | next d2 p2 heb tr0 =>
        cases heb with
        | false =>
          have hres : execLoop (n + 1) d (t :: rest) =
              .err (.schedule ((t :: rest).map (fun u => (u, missingOf d u)))) d2 tr0 := by
            simp only [execLoop, ho]
            rfl
          rw [hres] at h
          cases h
        | true =>
          have hres : execLoop (n + 1) d (t :: rest) =
              addTrace tr0 (execLoop n d2 p2) := by
            simp only [execLoop, ho]
            rfl
          rw [hres] at h
          cases hrec : execLoop n d2 p2 with
          | err e3 d3 tr3 =>
            rw [hrec] at h
            simp [addTrace] at h
          | ok d3 tr3 =>
            rw [hrec] at h
            simp only [addTrace, ExecResult.ok.injEq] at h
            obtain ⟨rfl, rfl⟩ := h
            have hp2sub : (p2.map (fun u => u.id)).Sublist
                ((t :: rest).map (fun u => u.id)) := by
              obtain ⟨_, hp2, _, _⟩ :=
                runPass_next_spec d (t :: rest) d (t :: rest) false d2 p2 true tr0 ho
              rw [hp2]
              exact List.Sublist.map (fun (u : TaskSpec K V) => u.id)
                (List.filter_sublist (t :: rest))
            have hnodup2 : (p2.map (fun u => u.id)).Nodup :=
              List.Nodup.sublist hp2sub hnodup
            have hih := ih d2 p2 d3 tr3 hnodup2 hrec
            have hpart := pass_partition d (t :: rest) hnodup d2 p2 true tr0 ho
            have hsplit : (tr0 ++ tr3).map (fun e => e.task.id) =
                tr0.map (fun e => e.task.id) ++ tr3.map (fun e => e.task.id) :=
              List.map_append _ tr0 tr3
            rw [hsplit]
            exact (List.Perm.append_left (tr0.map (fun e => e.task.id)) hih).trans hpart

/-- C1: in every successful step execution (with distinct task identities,
as Python class objects are), every task in the step executed exactly once,
and the declared output `TypeKey` of every executed task is present in the
returned step data. -/
theorem step_completeness (tasks : List (TaskSpec K V))
    (d dF : StepData K V) (tr : List (TraceEvent K V))
    (hnodup : (tasks.map (fun t => t.id)).Nodup)
    (hok : execute tasks d = .ok dF tr) :
    (∀ t ∈ tasks, (tr.map (fun e => e.task.id)).count t.id = 1) ∧
    (∀ ev ∈ tr, ∀ c : K, ev.task.ret = Ann.key c → Ann.key c ∈ keysOf dF) := by
  have hok2 : execLoop tasks.length d tasks = .ok dF tr := by
    unfold execute at hok
    cases hb : badParamError tasks with
    | some pr =>
      rw [hb] at hok
      cases pr with
      | mk t dep => simp at hok
    | none =>
      rw [hb] at hok
      exact hok
  constructor
  · intro t ht
    have hperm := execLoop_ok_trace_perm tasks.length d tasks dF tr hnodup hok2
    rw [hperm.count_eq t.id]
    exact List.count_eq_one_of_mem hnodup (List.mem_map_of_mem _ ht)
  · intro ev hmem c hret
    obtain ⟨hdata, _, _, hnored⟩ := execLoop_char tasks.length d tasks
    rw [hok2] at hdata hnored
    simp only [dataOf, traceOf, isOk] at hdata hnored
    cases hres : ev.result with
    | none =>
      have := hnored trivial ev hmem hres
      rw [hret] at this
      cases this
    | some v =>
      rw [hdata, ← hret]
      exact mem_keysOf_foldl_applyEvent tr d ev hmem v hres

/-- Witness for C1: in the two-task chain, the producer's identity occurs
exactly once in the executed trace and its output key `1` ends up in the
returned data. -/
theorem step_completeness_witness :
    (([⟨w1P, [], [], some 1⟩, ⟨w1Q, [(Ann.key 0, 1)], [1], some 2⟩] :
        List (TraceEvent ℕ ℕ)).map (fun e => e.task.id)).count 0 = 1 ∧
    Ann.key 1 ∈ keysOf ([(Ann.key 0, 1), (Ann.key 1, 2)] : StepData ℕ ℕ) := by
  have h := step_completeness [w1P, w1Q] [] [(Ann.key 0, 1), (Ann.key 1, 2)]
    [⟨w1P, [], [], some 1⟩, ⟨w1Q, [(Ann.key 0, 1)], [1], some 2⟩]
    (by decide) rfl
  refine ⟨h.1 w1P (List.mem_cons_self _ _), ?_⟩
  exact h.2 ⟨w1Q, [(Ann.key 0, 1)], [1], some 2⟩
    (List.mem_cons_of_mem _ (List.mem_cons_self _ _)) 1 rfl

/-- C6 (counterexample): with key `0` seeded to `0`, both `c6A` and `c6B`
are ready at the start of the single pass; `c6A` overwrites key `0` with
`5`, and `c6B`, constructed later in the same pass, is injected the value
`5` (its recorded construction-time data holds `5`), not the start-of-pass
value `0`: outputs written earlier in the same pass *are* observed. -/
theorem pass_values_not_snapshot_cex :
    (traceOf (execute [c6A, c6B] [(Ann.key 0, 0)])).map (fun e => e.args) =
      [[], [5]] ∧
    (traceOf (execute [c6A, c6B] [(Ann.key 0, 0)])).map (fun e => e.dataAt) =
      [[(Ann.key 0, 0)], [(Ann.key 0, 5)]] ∧
    dictGet ([(Ann.key 0, 0)] : StepData ℕ ℕ) (Ann.key 0) = some 0 ∧
    ([5] : List ℕ) ≠ [0] :=
  ⟨rfl, rfl, rfl, by decide⟩

/-- C6 (amended): within one pass, *whether* a task executes is determined
by the step data at the start of the pass (its `missing_dependencies`
entry), while every executing task is constructed with dependency values
read from the live step data at construction time — which includes outputs
written earlier in the same pass. -/
theorem pass_readiness_and_live_values :
    (∀ (d0 : StepData K V) (snap : List (TaskSpec K V)) (d : StepData K V)
        (p : List (TaskSpec K V)) (he : Bool) (d2 : StepData K V)
        (p2 : List (TaskSpec K V)) (he2 : Bool) (tr : List (TraceEvent K V)),
        runPass d0 snap d p he = .next d2 p2 he2 tr →
        tr.map (fun e => e.task) =
          snap.filter (fun t => (missingOf d0 t).isEmpty)) ∧
    (∀ (tasks : List (TaskSpec K V)) (d : StepData K V),
        ∀ ev ∈ traceOf (execute tasks d),
          depValues ev.dataAt ev.task = some ev.args) := by
  constructor
  · intro d0 snap d p he d2 p2 he2 tr h
    exact (runPass_next_spec d0 snap d p he d2 p2 he2 tr h).1
  · intro tasks d ev hmem
    unfold execute at hmem
    cases hb : badParamError tasks with
    | some pr =>
      rw [hb] at hmem
      cases pr with
      | mk t dep => simp [traceOf] at hmem
    | none =>
      rw [hb] at hmem
      obtain ⟨_, hev, _, _⟩ := execLoop_char tasks.length d tasks
      exact (hev ev hmem).1

/-- Witness for the amended C6: in the overwrite scenario the executed list
equals the snapshot-ready filter, and the later task's injected values come
from its recorded construction-time data. -/
theorem pass_readiness_and_live_values_witness :
    ([⟨c6A, [(Ann.key 0, 0)], [], some 5⟩,
      ⟨c6B, [(Ann.key 0, 5)], [5], some 5⟩] :
        List (TraceEvent ℕ ℕ)).map (fun e => e.task) =
      [c6A, c6B].filter (fun t => (missingOf [(Ann.key 0, 0)] t).isEmpty) ∧
    depValues [(Ann.key 0, 5)] c6B = some [5] := by
  constructor
  · exact pass_readiness_and_live_values.1 [(Ann.key 0, 0)] [c6A, c6B]
      [(Ann.key 0, 0)] [c6A, c6B] false [(Ann.key 0, 5), (Ann.key 1, 5)] [] true
      [⟨c6A, [(Ann.key 0, 0)], [], some 5⟩,
       ⟨c6B, [(Ann.key 0, 5)], [5], some 5⟩] rfl
  · exact pass_readiness_and_live_values.2 [c6A, c6B] [(Ann.key 0, 0)]
      ⟨c6B, [(Ann.key 0, 5)], [5], some 5⟩
      (List.mem_cons_of_mem _ (List.mem_cons_self _ _))

theorem runPass_cons_not_ready (d0 : StepData K V) (t : TaskSpec K V)
    (rest : List (TaskSpec K V)) (d : StepData K V) (p : List (TaskSpec K V))
    (he : Bool) (hne : (missingOf d0 t).isEmpty = false) :
    runPass d0 (t :: rest) d p he = runPass d0 rest d p he := by
  simp [runPass, hne]

theorem runPass_cons_keyErr (d0 : StepData K V) (t : TaskSpec K V)
    (rest : List (TaskSpec K V)) (d : StepData K V) (p : List (TaskSpec K V))
    (he : Bool) (hr : (missingOf d0 t).isEmpty = true)
    (hdv : depValues d t = none) :
    runPass d0 (t :: rest) d p he = .fail .keyError d [] := by
  simp [runPass, hr, hdv]

theorem runPass_cons_ret_none_ok (d0 : StepData K V) (t : TaskSpec K V)
    (rest : List (TaskSpec K V)) (d : StepData K V) (p : List (TaskSpec K V))
    (he : Bool) (args : List V) (hr : (missingOf d0 t).isEmpty = true)
    (hdv : depValues d t = some args) (hrun : t.run args = none)
    (hret : t.ret = Ann.pyNone) :
    runPass d0 (t :: rest) d p he =
      passPrepend ⟨t, d, args, none⟩
        (runPass d0 rest d (p.filter (fun u => decide (u.id ≠ t.id))) true) := by
  simp [runPass, hr, hdv, hrun, hret]

theorem runPass_cons_ret_none_bad (d0 : StepData K V) (t : TaskSpec K V)
    (rest : List (TaskSpec K V)) (d : StepData K V) (p : List (TaskSpec K V))
    (he : Bool) (args : List V) (hr : (missingOf d0 t).isEmpty = true)
    (hdv : depValues d t = some args) (hrun : t.run args = none)
    (hret : t.ret ≠ Ann.pyNone) :
    runPass d0 (t :: rest) d p he = .fail (.injectionReturn t) d [⟨t, d, args, none⟩] := by
  simp [runPass, hr, hdv, hrun, hret]

theorem runPass_cons_some (d0 : StepData K V) (t : TaskSpec K V)
    (rest : List (TaskSpec K V)) (d : StepData K V) (p : List (TaskSpec K V))
    (he : Bool) (args : List V) (v : V) (hr : (missingOf d0 t).isEmpty = true)
    (hdv : depValues d t = some args) (hrun : t.run args = some v) :
    runPass d0 (t :: rest) d p he =
      passPrepend ⟨t, d, args, some v⟩
        (runPass d0 rest (dictSet d t.ret v)
          (p.filter (fun u => decide (u.id ≠ t.id))) true) := by
  simp [runPass, hr, hdv, hrun]

theorem mapM_option_congr {A B : Type} (l : List A) (f g : A → Option B)
    (h : ∀ a ∈ l, f a = g a) : l.mapM f = l.mapM g := by
  induction l with
  | nil => rfl
  | cons a rest ih =>
    rw [List.mapM_cons, List.mapM_cons, h a (List.mem_cons_self a rest),
      ih (fun b hb => h b (List.mem_cons_of_mem a hb))]

theorem mapM_option_isSome {A B : Type} (l : List A) (f : A → Option B)
    (h : ∀ a ∈ l, (f a).isSome = true) : ∃ vs, l.mapM f = some vs := by
  induction l with
  | nil => exact ⟨[], rfl⟩
  | cons a rest ih =>
    obtain ⟨v, hv⟩ := Option.isSome_iff_exists.mp (h a (List.mem_cons_self a rest))
    obtain ⟨vs, hvs⟩ := ih (fun b hb => h b (List.mem_cons_of_mem a hb))
    refine ⟨v :: vs, ?_⟩
    rw [List.mapM_cons, hv, hvs]
    rfl

theorem depValues_eq_of_inv (d0 d : StepData K V) (t : TaskSpec K V)
    (hinv : ∀ k, k ∈ keysOf d0 → dictGet d k = dictGet d0 k)
    (hready : (missingOf d0 t).isEmpty = true) :
    depValues d t = depValues d0 t := by
  unfold depValues
  apply mapM_option_congr
  intro dep hdep
  exact hinv dep.ann ((missingOf_isEmpty_iff d0 t).mp hready dep hdep)

theorem depValues_some_of_ready (d0 : StepData K V) (t : TaskSpec K V)
    (hready : (missingOf d0 t).isEmpty = true) :
    ∃ args, depValues d0 t = some args := by
  apply mapM_option_isSome
  intro dep hdep
  rw [dictGet_isSome_iff]
  exact (missingOf_isEmpty_iff d0 t).mp hready dep hdep

theorem dictEquiv_keys_iff (d1 d2 : StepData K V) (h : dictEquiv d1 d2) (k : Ann K) :
    k ∈ keysOf d1 ↔ k ∈ keysOf d2 := by
  rw [← dictGet_isSome_iff, ← dictGet_isSome_iff, h k]

theorem missingOf_congr (d1 d2 : StepData K V) (h : dictEquiv d1 d2)
    (t : TaskSpec K V) : missingOf d1 t = missingOf d2 t := by
  unfold missingOf
  apply List.filter_congr
  intro dep _
  rw [decide_eq_decide]
  exact not_congr (dictEquiv_keys_iff d1 d2 h dep.ann)

theorem depValues_congr (d1 d2 : StepData K V) (h : dictEquiv d1 d2)
    (t : TaskSpec K V) : depValues d1 t = depValues d2 t :=
  mapM_option_congr _ _ _ (fun dep _ => h dep.ann)

theorem resultOn_congr (d1 d2 : StepData K V) (h : dictEquiv d1 d2)
    (t : TaskSpec K V) : resultOn d1 t = resultOn d2 t := by
  unfold resultOn
  rw [depValues_congr d1 d2 h t]

omit [DecidableEq K] in
theorem passPrepend_fail_iff (o : PassOut K V) (ev : TraceEvent K V) :
    (∃ e dE trE, passPrepend ev o = .fail e dE trE) ↔
      (∃ e dE trE, o = .fail e dE trE) := by
  cases o with
  | fail e dE trE => simp [passPrepend]
  | next a b c dd => simp [passPrepend]

/-- Under write-freshness, a pass raises an exception exactly when some
ready snapshot entry returns `None` while declaring a non-`None` output. -/
theorem runPass_fail_iff (d0 : StepData K V) (snap : List (TaskSpec K V)) :
    ∀ (d : StepData K V) (p : List (TaskSpec K V)) (he : Bool),
      (∀ k, k ∈ keysOf d0 → dictGet d k = dictGet d0 k) →
      (∀ t ∈ snap, (missingOf d0 t).isEmpty = true → t.ret ∉ keysOf d0) →
      ((∃ e dE trE, runPass d0 snap d p he = .fail e dE trE) ↔
        (∃ t ∈ snap, (missingOf d0 t).isEmpty = true ∧
          resultOn d0 t = none ∧ t.ret ≠ Ann.pyNone)) := by
  induction snap with
  | nil =>
    intro d p he hinv hfresh
    constructor
    · rintro ⟨e, dE, trE, h⟩
      simp [runPass] at h
    · rintro ⟨t, ht, _⟩
      exact absurd ht (List.not_mem_nil t)
  | cons t rest ih =>
    intro d p he hinv hfresh
    by_cases hr : (missingOf d0 t).isEmpty = true
    · obtain ⟨args, hargs⟩ := depValues_some_of_ready d0 t hr
      have hdv : depValues d t = some args := by
        rw [depValues_eq_of_inv d0 d t hinv hr, hargs]
      have hres : resultOn d0 t = t.run args := by
        unfold resultOn
        rw [hargs]
        rfl
      cases hrun : t.run args with
      | none =>
        by_cases hret : t.ret = Ann.pyNone
        · rw [runPass_cons_ret_none_ok d0 t rest d p he args hr hdv hrun hret]
          rw [passPrepend_fail_iff]
          rw [ih d (p.filter (fun u => decide (u.id ≠ t.id))) true hinv
            (fun u hu => hfresh u (List.mem_cons_of_mem t hu))]
          constructor
          · rintro ⟨u, hu, h1, h2, h3⟩
            exact ⟨u, List.mem_cons_of_mem t hu, h1, h2, h3⟩
          · rintro ⟨u, hu, h1, h2, h3⟩
            rcases List.mem_cons.mp hu with rfl | hu
            · exact absurd hret h3
            · exact ⟨u, hu, h1, h2, h3⟩
        · rw [runPass_cons_ret_none_bad d0 t rest d p he args hr hdv hrun hret]
          constructor
          · intro _
            refine ⟨t, List.mem_cons_self t rest, hr, ?_, hret⟩
            rw [hres, hrun]
          · intro _
            exact ⟨.injectionReturn t, d, [⟨t, d, args, none⟩], rfl⟩
      | some v =>
        rw [runPass_cons_some d0 t rest d p he args v hr hdv hrun]
        rw [passPrepend_fail_iff]
        have hinv2 : ∀ k, k ∈ keysOf d0 →
            dictGet (dictSet d t.ret v) k = dictGet d0 k := by
          intro k hk
          have hne : k ≠ t.ret := fun hc =>
            (hfresh t (List.mem_cons_self t rest) hr) (hc ▸ hk)
          rw [dictGet_dictSet_ne d t.ret k v hne]
          exact hinv k hk
        rw [ih (dictSet d t.ret v) (p.filter (fun u => decide (u.id ≠ t.id))) true
          hinv2 (fun u hu => hfresh u (List.mem_cons_of_mem t hu))]
        constructor
        · rintro ⟨u, hu, h1, h2, h3⟩
          exact ⟨u, List.mem_cons_of_mem t hu, h1, h2, h3⟩
        · rintro ⟨u, hu, h1, h2, h3⟩
          rcases List.mem_cons.mp hu with rfl | hu
          · rw [hres, hrun] at h2
            cases h2
          · exact ⟨u, hu, h1, h2, h3⟩
    · have hne : (missingOf d0 t).isEmpty = false := by
        cases hmb : (missingOf d0 t).isEmpty
        · rfl
        · exact absurd hmb hr
      rw [runPass_cons_not_ready d0 t rest d p he hne]
      rw [ih d p he hinv (fun u hu => hfresh u (List.mem_cons_of_mem t hu))]
      constructor
      · rintro ⟨u, hu, h1, h2, h3⟩
        exact ⟨u, List.mem_cons_of_mem t hu, h1, h2, h3⟩
      · rintro ⟨u, hu, h1, h2, h3⟩
        rcases List.mem_cons.mp hu with rfl | hu
        · exact absurd h1 hr
        · exact ⟨u, hu, h1, h2, h3⟩

theorem writeLook_cons_of_pos (d0 : StepData K V) (t : TaskSpec K V)
    (l : List (TaskSpec K V)) (k : Ann K) (fb : Option V)
    (h : (decide (t.ret = k) && (resultOn d0 t).isSome) = true) :
    writeLook d0 (t :: l) k fb = resultOn d0 t := by
  unfold writeLook
  rw [List.find?_cons_of_pos l h]

theorem writeLook_cons_of_neg (d0 : StepData K V) (t : TaskSpec K V)
    (l : List (TaskSpec K V)) (k : Ann K) (fb : Option V)
    (h : (decide (t.ret = k) && (resultOn d0 t).isSome) = false) :
    writeLook d0 (t :: l) k fb = writeLook d0 l k fb := by
  unfold writeLook
  rw [List.find?_cons_of_neg l (by simp [h])]

theorem writeLook_eq_fb (d0 : StepData K V) (l : List (TaskSpec K V))
    (k : Ann K) (fb : Option V)
    (h : ∀ u ∈ l, (decide (u.ret = k) && (resultOn d0 u).isSome) = false) :
    writeLook d0 l k fb = fb := by
  unfold writeLook
  rw [List.find?_eq_none.mpr (fun x hx => by rw [h x hx]; simp)]

/-- Under write-freshness and pairwise-distinct output annotations of the
ready tasks, a pass that returns normally computes, at every key, either the
output of the unique ready task writing that key (with that task's values
read from the pass-start data) or the incoming value. -/
theorem runPass_next_data (d0 : StepData K V) (snap : List (TaskSpec K V)) :
    ∀ (d : StepData K V) (p : List (TaskSpec K V)) (he : Bool)
      (d2 : StepData K V) (p2 : List (TaskSpec K V)) (he2 : Bool)
      (tr : List (TraceEvent K V)),
      (∀ k, k ∈ keysOf d0 → dictGet d k = dictGet d0 k) →
      (∀ t ∈ snap, (missingOf d0 t).isEmpty = true → t.ret ∉ keysOf d0) →
      ((snap.filter (fun t => (missingOf d0 t).isEmpty)).map
        (fun t => t.ret)).Nodup →
      runPass d0 snap d p he = .next d2 p2 he2 tr →
      ∀ k, dictGet d2 k =
        writeLook d0 (snap.filter (fun t => (missingOf d0 t).isEmpty)) k
          (dictGet d k) := by
  induction snap with
  | nil =>
    intro d p he d2 p2 he2 tr _ _ _ h k
    simp only [runPass, PassOut.next.injEq] at h
    obtain ⟨rfl, _, _, _⟩ := h
    rfl
  | cons t rest ih =>
    intro d p he d2 p2 he2 tr hinv hfresh hnodup h k
    by_cases hr : (missingOf d0 t).isEmpty = true
    · obtain ⟨args, hargs⟩ := depValues_some_of_ready d0 t hr
      have hdv : depValues d t = some args := by
        rw [depValues_eq_of_inv d0 d t hinv hr, hargs]
      have hres : resultOn d0 t = t.run args := by
        unfold resultOn
        rw [hargs]
        rfl
      have hfiltc := @List.filter_cons_of_pos _
        (fun u => (missingOf d0 u).isEmpty) t rest hr
      rw [hfiltc] at hnodup ⊢
      cases hrun : t.run args with
      | none =>
        by_cases hret : t.ret = Ann.pyNone
        · rw [runPass_cons_ret_none_ok d0 t rest d p he args hr hdv hrun hret] at h
          cases hrec : runPass d0 rest d
              (p.filter (fun u => decide (u.id ≠ t.id))) true with
          | fail e dE trE =>
            rw [hrec] at h
            simp [passPrepend] at h
          | next dr pr her trr =>
            rw [hrec] at h
            simp only [passPrepend, PassOut.next.injEq] at h
            obtain ⟨rfl, rfl, rfl, rfl⟩ := h
            have hihk := ih d (p.filter (fun u => decide (u.id ≠ t.id))) true
              dr pr her trr hinv
              (fun u hu => hfresh u (List.mem_cons_of_mem t hu))
              (List.Nodup.of_cons hnodup) hrec k
            rw [hihk]
            rw [writeLook_cons_of_neg d0 t _ k _ (by
              rw [hres, hrun]
              simp)]
        · rw [runPass_cons_ret_none_bad d0 t rest d p he args hr hdv hrun hret] at h
          cases h
      | some v =>
        have hres0 : resultOn d0 t = some v := by
          rw [hres, hrun]
        rw [runPass_cons_some d0 t rest d p he args v hr hdv hrun] at h
        cases hrec : runPass d0 rest (dictSet d t.ret v)
            (p.filter (fun u => decide (u.id ≠ t.id))) true with
        | fail e dE trE =>
          rw [hrec] at h
          simp [passPrepend] at h
        | next dr pr her trr =>
          rw [hrec] at h
          simp only [passPrepend, PassOut.next.injEq] at h
          obtain ⟨rfl, rfl, rfl, rfl⟩ := h
          have hinv2 : ∀ a, a ∈ keysOf d0 →
              dictGet (dictSet d t.ret v) a = dictGet d0 a := by
            intro a ha
            have hne : a ≠ t.ret := fun hc =>
              (hfresh t (List.mem_cons_self t rest) hr) (hc ▸ ha)
            rw [dictGet_dictSet_ne d t.ret a v hne]
            exact hinv a ha
          have hihk := ih (dictSet d t.ret v)
            (p.filter (fun u => decide (u.id ≠ t.id))) true
            dr pr her trr hinv2
            (fun u hu => hfresh u (List.mem_cons_of_mem t hu))
            (List.Nodup.of_cons hnodup) hrec k
          rw [hihk]
          by_cases hk : t.ret = k
          · rw [writeLook_cons_of_pos d0 t _ k _ (by
              rw [hres0]
              simp [hk])]
            rw [hres0]
            have hnone : ∀ u ∈ rest.filter (fun x => (missingOf d0 x).isEmpty),
                (decide (u.ret = k) && (resultOn d0 u).isSome) = false := by
              intro u hu
              have hur : u.ret ≠ k := by
                intro hc
                have : t.ret ∈ (rest.filter
                    (fun x => (missingOf d0 x).isEmpty)).map (fun x => x.ret) := by
                  rw [hk]
                  rw [← hc]
                  exact List.mem_map_of_mem _ hu
                exact (List.nodup_cons.mp hnodup).1 this
              simp [hur]
            rw [writeLook_eq_fb d0 _ k _ hnone]
            rw [← hk, dictGet_dictSet_self]
          · rw [writeLook_cons_of_neg d0 t _ k _ (by simp [hk])]
            rw [dictGet_dictSet_ne d t.ret k v (fun hc => hk hc.symm)]
    · have hne2 : (missingOf d0 t).isEmpty = false := by
        cases hmb : (missingOf d0 t).isEmpty
        · rfl
        · exact absurd hmb hr
      rw [runPass_cons_not_ready d0 t rest d p he hne2] at h
      have hfiltc := @List.filter_cons_of_neg _
        (fun u => (missingOf d0 u).isEmpty) t rest hr
      rw [hfiltc] at hnodup ⊢
      exact ih d p he d2 p2 he2 tr hinv
        (fun u hu => hfresh u (List.mem_cons_of_mem t hu)) hnodup h k

/-- When the pending identities are distinct, the pending list left by a
pass is exactly the not-ready filter of the incoming pending list. -/
theorem pass_pending_eq (d : StepData K V) (p : List (TaskSpec K V))
    (hnodup : (p.map (fun u => u.id)).Nodup)
    (d2 : StepData K V) (p2 : List (TaskSpec K V)) (heb : Bool)
    (tr : List (TraceEvent K V))
    (h : runPass d p d p false = .next d2 p2 heb tr) :
    p2 = p.filter (fun u => !((missingOf d u).isEmpty)) := by
  obtain ⟨htr, hp2, _, _⟩ := runPass_next_spec d p d p false d2 p2 heb tr h
  have htrid : tr.map (fun e => e.task.id) =
      (p.filter (fun t => (missingOf d t).isEmpty)).map (fun u => u.id) := by
    rw [← htr, List.map_map]
    rfl
  have hpoint : ∀ u ∈ p,
      (decide (u.id ∉ tr.map (fun e => e.task.id))) =
        !((missingOf d u).isEmpty) := by
    intro u hu
    by_cases hready : (missingOf d u).isEmpty = true
    · have : u.id ∈ tr.map (fun e => e.task.id) := by
        rw [htrid]
        exact List.mem_map_of_mem _ (List.mem_filter.mpr ⟨hu, hready⟩)
      simp [this, hready]
    · have : u.id ∉ tr.map (fun e => e.task.id) := by
        rw [htrid]
        intro hcon
        obtain ⟨w, hw, hwid⟩ := List.mem_map.mp hcon
        have hwp : w ∈ p := List.mem_of_mem_filter hw
        have : w = u := List.inj_on_of_nodup_map hnodup hwp hu hwid
        subst this
        exact hready (List.mem_filter.mp hw).2
      simp [this]
      simpa using hready
  rw [hp2]
  exact List.filter_congr hpoint

theorem find?_congr_custom {A : Type} (l : List A) (p q : A → Bool)
    (h : ∀ a ∈ l, p a = q a) : l.find? p = l.find? q := by
  induction l with
  | nil => rfl
  | cons a rest ih =>
    rw [List.find?_cons, List.find?_cons, h a (List.mem_cons_self a rest),
      ih (fun b hb => h b (List.mem_cons_of_mem a hb))]

theorem find?_perm_of_unique {A : Type} (l1 l2 : List A) (q : A → Bool)
    (hperm : l2.Perm l1)
    (huniq : ∀ a ∈ l1, ∀ b ∈ l1, q a = true → q b = true → a = b) :
    (∃ a, l1.find? q = some a ∧ l2.find? q = some a) ∨
      (l1.find? q = none ∧ l2.find? q = none) := by
  cases h1 : l1.find? q with
  | none =>
    right
    refine ⟨rfl, List.find?_eq_none.mpr ?_⟩
    intro x hx
    exact List.find?_eq_none.mp h1 x (hperm.mem_iff.mp hx)
  | some a =>
    left
    cases h2 : l2.find? q with
    | none =>
      exfalso
      exact List.find?_eq_none.mp h2 a
        (hperm.mem_iff.mpr (List.mem_of_find?_eq_some h1))
        (List.find?_some h1)
    | some b =>
      have hab : b = a := huniq b
        (hperm.mem_iff.mp (List.mem_of_find?_eq_some h2)) a
        (List.mem_of_find?_eq_some h1) (List.find?_some h2) (List.find?_some h1)
      exact ⟨a, rfl, by rw [hab]⟩

/-- The collective-write lookup of a pass is invariant under permuting the
ready tasks, given pairwise-distinct output annotations and extensionally
equal pass-start data. -/
theorem writeLook_perm (d1 d2 : StepData K V) (hd : dictEquiv d1 d2)
    (F1 F2 : List (TaskSpec K V)) (hperm : F2.Perm F1)
    (hnodup : (F1.map (fun t => t.ret)).Nodup)
    (k : Ann K) (fb1 fb2 : Option V) (hfb : fb1 = fb2) :
    writeLook d1 F1 k fb1 = writeLook d2 F2 k fb2 := by
  unfold writeLook
  have hfind2 : F2.find? (fun t => decide (t.ret = k) && (resultOn d2 t).isSome) =
      F2.find? (fun t => decide (t.ret = k) && (resultOn d1 t).isSome) :=
    find?_congr_custom F2 _ _
      (fun a _ => by rw [resultOn_congr d1 d2 hd a])
  rw [hfind2, hfb]
  have huniq : ∀ a ∈ F1, ∀ b ∈ F1,
      (decide (a.ret = k) && (resultOn d1 a).isSome) = true →
      (decide (b.ret = k) && (resultOn d1 b).isSome) = true → a = b := by
    intro a ha b hb hqa hqb
    have hak : a.ret = k := by
      have := (Bool.and_eq_true _ _).mp hqa
      exact of_decide_eq_true this.1
    have hbk : b.ret = k := by
      have := (Bool.and_eq_true _ _).mp hqb
      exact of_decide_eq_true this.1
    exact List.inj_on_of_nodup_map hnodup ha hb (by rw [hak, hbk])
  rcases find?_perm_of_unique F1 F2
      (fun t => decide (t.ret = k) && (resultOn d1 t).isSome) hperm huniq with
    ⟨a, ha1, ha2⟩ | ⟨ha1, ha2⟩
  · rw [ha1, ha2]
    show resultOn d1 a = resultOn d2 a
    exact resultOn_congr d1 d2 hd a
  · rw [ha1, ha2]

/-- Simulation between two runs of the scheduling loop whose pending lists
are permutations of each other, under write-freshness (no pending task's
output annotation is already a key, and output annotations are pairwise
distinct): the two runs succeed together, and on success produce
extensionally equal step data. -/
theorem execLoop_perm_sim (fuel : ℕ) :
    ∀ (d1 d2 : StepData K V) (p1 p2 : List (TaskSpec K V)),
      dictEquiv d1 d2 →
      p2.Perm p1 →
      (p1.map (fun u => u.id)).Nodup →
      (p1.map (fun u => u.ret)).Nodup →
      (∀ t ∈ p1, t.ret ∉ keysOf d1) →
      (isOk (execLoop fuel d1 p1) = isOk (execLoop fuel d2 p2)) ∧
      (∀ dF1 trF1 dF2 trF2, execLoop fuel d1 p1 = .ok dF1 trF1 →
        execLoop fuel d2 p2 = .ok dF2 trF2 → dictEquiv dF1 dF2) := by
  induction fuel with
  | zero =>
    intro d1 d2 p1 p2 hd hperm hids hrets hfresh
    cases p1 with
    | nil =>
      have hp2 : p2 = [] := hperm.eq_nil
      subst hp2
      refine ⟨rfl, ?_⟩
      intro dF1 trF1 dF2 trF2 h1 h2
      simp only [execLoop, ExecResult.ok.injEq] at h1 h2
      rw [← h1.1, ← h2.1]
      exact hd
    | cons t rest =>
      cases hp2c : p2 with
      | nil =>
        exfalso
        rw [hp2c] at hperm
        exact List.cons_ne_nil t rest hperm.symm.eq_nil
      | cons u rest2 =>
        subst hp2c
        refine ⟨rfl, ?_⟩
        intro dF1 trF1 dF2 trF2 h1 h2
        simp [execLoop] at h1
  | succ n ih =>
    intro d1 d2 p1 p2 hd hperm hids hrets hfresh
    cases p1 with
    | nil =>
      have hp2 : p2 = [] := hperm.eq_nil
      subst hp2
      refine ⟨rfl, ?_⟩
      intro dF1 trF1 dF2 trF2 h1 h2
      simp only [execLoop, ExecResult.ok.injEq] at h1 h2
      rw [← h1.1, ← h2.1]
      exact hd
    | cons t rest =>
      cases hp2c : p2 with
      | nil =>
        exfalso
        rw [hp2c] at hperm
        exact List.cons_ne_nil t rest hperm.symm.eq_nil
      | cons u rest2 =>
        subst hp2c
        have hready_eq : ∀ x, (missingOf d2 x).isEmpty = (missingOf d1 x).isEmpty := by
          intro x
          rw [missingOf_congr d1 d2 hd x]
        have hfresh1 : ∀ x ∈ t :: rest,
            (missingOf d1 x).isEmpty = true → x.ret ∉ keysOf d1 :=
          fun x hx _ => hfresh x hx
        have hfresh2 : ∀ x ∈ u :: rest2,
            (missingOf d2 x).isEmpty = true → x.ret ∉ keysOf d2 := by
          intro x hx _
          rw [← dictEquiv_keys_iff d1 d2 hd x.ret]
          exact hfresh x (hperm.mem_iff.mp hx)
        have hbadiff :
            (∃ x ∈ t :: rest, (missingOf d1 x).isEmpty = true ∧
              resultOn d1 x = none ∧ x.ret ≠ Ann.pyNone) ↔
            (∃ x ∈ u :: rest2, (missingOf d2 x).isEmpty = true ∧
              resultOn d2 x = none ∧ x.ret ≠ Ann.pyNone) := by
          constructor
          · rintro ⟨x, hx, hx1, hx2, hx3⟩
            refine ⟨x, hperm.mem_iff.mpr hx, ?_, ?_, hx3⟩
            · rw [hready_eq x]
              exact hx1
            · rw [← resultOn_congr d1 d2 hd x]
              exact hx2
          · rintro ⟨x, hx, hx1, hx2, hx3⟩
            refine ⟨x, hperm.mem_iff.mp hx, ?_, ?_, hx3⟩
            · rw [← hready_eq x]
              exact hx1
            · rw [resultOn_congr d1 d2 hd x]
              exact hx2
        by_cases hbad : ∃ x ∈ t :: rest, (missingOf d1 x).isEmpty = true ∧
            resultOn d1 x = none ∧ x.ret ≠ Ann.pyNone
        · obtain ⟨e1, dE1, trE1, hfail1⟩ :=
            (runPass_fail_iff d1 (t :: rest) d1 (t :: rest) false
              (fun _ _ => rfl) hfresh1).mpr hbad
          obtain ⟨e2, dE2, trE2, hfail2⟩ :=
            (runPass_fail_iff d2 (u :: rest2) d2 (u :: rest2) false
              (fun _ _ => rfl) hfresh2).mpr (hbadiff.mp hbad)
          have hres1 : execLoop (n + 1) d1 (t :: rest) = .err e1 dE1 trE1 := by
            simp only [execLoop, hfail1]
          have hres2 : execLoop (n + 1) d2 (u :: rest2) = .err e2 dE2 trE2 := by
            simp only [execLoop, hfail2]
          rw [hres1, hres2]
          refine ⟨rfl, ?_⟩
          intro dF1 trF1 dF2 trF2 h1 h2
          cases h1
        · cases ho1 : runPass d1 (t :: rest) d1 (t :: rest) false with
          | fail e dE trE =>
            exact absurd ((runPass_fail_iff d1 (t :: rest) d1 (t :: rest) false
              (fun _ _ => rfl) hfresh1).mp ⟨e, dE, trE, ho1⟩) hbad
          | next d21 p21 he1 tr1p =>
            cases ho2 : runPass d2 (u :: rest2) d2 (u :: rest2) false with
            | fail e dE trE =>
              exact absurd (hbadiff.mpr
                ((runPass_fail_iff d2 (u :: rest2) d2 (u :: rest2) false
                  (fun _ _ => rfl) hfresh2).mp ⟨e, dE, trE, ho2⟩)) hbad
            | next d22 p22 he2 tr2p =>
              obtain ⟨htr1, _, hhe1, _⟩ :=
                runPass_next_spec d1 (t :: rest) d1 (t :: rest) false
                  d21 p21 he1 tr1p ho1
              obtain ⟨htr2, _, hhe2, _⟩ :=
                runPass_next_spec d2 (u :: rest2) d2 (u :: rest2) false
                  d22 p22 he2 tr2p ho2
              have hF2eq : (u :: rest2).filter (fun x => (missingOf d2 x).isEmpty) =
                  (u :: rest2).filter (fun x => (missingOf d1 x).isEmpty) :=
                List.filter_congr (fun x _ => hready_eq x)
              have hFperm : ((u :: rest2).filter
                    (fun x => (missingOf d2 x).isEmpty)).Perm
                  ((t :: rest).filter (fun x => (missingOf d1 x).isEmpty)) := by
                rw [hF2eq]
                exact hperm.filter (fun x => (missingOf d1 x).isEmpty)
              have hF1nil_iff : tr1p = [] ↔
                  (t :: rest).filter (fun x => (missingOf d1 x).isEmpty) = [] := by
                constructor
                · intro hnil
                  rw [← htr1, hnil]
                  rfl
                · intro hnil
                  have hmn := htr1
                  rw [hnil] at hmn
                  exact List.map_eq_nil_iff.mp hmn
              have hF2nil_iff : tr2p = [] ↔
                  (u :: rest2).filter (fun x => (missingOf d2 x).isEmpty) = [] := by
                constructor
                · intro hnil
                  rw [← htr2, hnil]
                  rfl
                · intro hnil
                  have hmn := htr2
                  rw [hnil] at hmn
                  exact List.map_eq_nil_iff.mp hmn
              by_cases hF1 : (t :: rest).filter (fun x => (missingOf d1 x).isEmpty) = []
              · have htr1nil : tr1p = [] := hF1nil_iff.mpr hF1
                have hF2nil : (u :: rest2).filter
                    (fun x => (missingOf d2 x).isEmpty) = [] := by
                  rw [hF1] at hFperm
                  exact hFperm.eq_nil
                have htr2nil : tr2p = [] := hF2nil_iff.mpr hF2nil
                have hhe1f : he1 = false := by
                  rw [hhe1, htr1nil]
                  rfl
                have hhe2f : he2 = false := by
                  rw [hhe2, htr2nil]
                  rfl
                subst hhe1f
                subst hhe2f
                have hres1 : execLoop (n + 1) d1 (t :: rest) =
                    .err (.schedule ((t :: rest).map
                      (fun x => (x, missingOf d1 x)))) d21 tr1p := by
                  simp only [execLoop, ho1]
                  rfl
                have hres2 : execLoop (n + 1) d2 (u :: rest2) =
                    .err (.schedule ((u :: rest2).map
                      (fun x => (x, missingOf d2 x)))) d22 tr2p := by
                  simp only [execLoop, ho2]
                  rfl
                rw [hres1, hres2]
                refine ⟨rfl, ?_⟩
                intro dF1 trF1 dF2 trF2 h1 h2
                cases h1
              · have hF2ne : (u :: rest2).filter
                    (fun x => (missingOf d2 x).isEmpty) ≠ [] := by
                  intro hc
                  rw [hc] at hFperm
                  exact hF1 hFperm.symm.eq_nil
                have htr1ne : tr1p ≠ [] := fun hc => hF1 (hF1nil_iff.mp hc)
                have htr2ne : tr2p ≠ [] := fun hc => hF2ne (hF2nil_iff.mp hc)
                have hhe1t : he1 = true := by
                  rw [hhe1]
                  cases htrc : tr1p with
                  | nil => exact absurd htrc htr1ne
                  | cons a l => rfl
                have hhe2t : he2 = true := by
                  rw [hhe2]
                  cases htrc : tr2p with
                  | nil => exact absurd htrc htr2ne
                  | cons a l => rfl
                subst hhe1t
                subst hhe2t
                have hres1 : execLoop (n + 1) d1 (t :: rest) =
                    addTrace tr1p (execLoop n d21 p21) := by
                  simp only [execLoop, ho1]
                  rfl
                have hres2 : execLoop (n + 1) d2 (u :: rest2) =
                    addTrace tr2p (execLoop n d22 p22) := by
                  simp only [execLoop, ho2]
                  rfl
                have p2ids : ((u :: rest2).map (fun x => x.id)).Nodup :=
                  ((hperm.map (fun x => x.id)).nodup_iff).mpr hids
                have p2rets : ((u :: rest2).map (fun x => x.ret)).Nodup :=
                  ((hperm.map (fun x => x.ret)).nodup_iff).mpr hrets
                have hnodupF1 : (((t :: rest).filter
                    (fun x => (missingOf d1 x).isEmpty)).map (fun x => x.ret)).Nodup :=
                  List.Nodup.sublist
                    (List.Sublist.map (fun (x : TaskSpec K V) => x.ret)
                      (List.filter_sublist (t :: rest))) hrets
                have hnodupF2 : (((u :: rest2).filter
                    (fun x => (missingOf d2 x).isEmpty)).map (fun x => x.ret)).Nodup :=
                  List.Nodup.sublist
                    (List.Sublist.map (fun (x : TaskSpec K V) => x.ret)
                      (List.filter_sublist (u :: rest2))) p2rets
                have hchar1 := runPass_next_data d1 (t :: rest) d1 (t :: rest) false
                  d21 p21 true tr1p (fun _ _ => rfl) hfresh1 hnodupF1 ho1
                have hchar2 := runPass_next_data d2 (u :: rest2) d2 (u :: rest2) false
                  d22 p22 true tr2p (fun _ _ => rfl) hfresh2 hnodupF2 ho2
                have hdNext : dictEquiv d21 d22 := by
                  intro k
                  rw [hchar1 k, hchar2 k]
                  exact writeLook_perm d1 d2 hd _ _ hFperm hnodupF1 k _ _ (hd k)
                have hp21 : p21 = (t :: rest).filter
                    (fun x => !((missingOf d1 x).isEmpty)) :=
                  pass_pending_eq d1 (t :: rest) hids d21 p21 true tr1p ho1
                have hp22 : p22 = (u :: rest2).filter
                    (fun x => !((missingOf d2 x).isEmpty)) :=
                  pass_pending_eq d2 (u :: rest2) p2ids d22 p22 true tr2p ho2
                have hpermNext : p22.Perm p21 := by
                  rw [hp21, hp22]
                  have heq2 : (u :: rest2).filter
                      (fun x => !((missingOf d2 x).isEmpty)) =
                      (u :: rest2).filter (fun x => !((missingOf d1 x).isEmpty)) :=
                    List.filter_congr (fun x _ => by rw [hready_eq x])
                  rw [heq2]
                  exact hperm.filter (fun x => !((missingOf d1 x).isEmpty))
                have hidsNext : (p21.map (fun x => x.id)).Nodup := by
                  rw [hp21]
                  exact List.Nodup.sublist
                    (List.Sublist.map (fun (x : TaskSpec K V) => x.id)
                      (List.filter_sublist (t :: rest))) hids
                have hretsNext : (p21.map (fun x => x.ret)).Nodup := by
                  rw [hp21]
                  exact List.Nodup.sublist
                    (List.Sublist.map (fun (x : TaskSpec K V) => x.ret)
                      (List.filter_sublist (t :: rest))) hrets
                have hfreshNext : ∀ x ∈ p21, x.ret ∉ keysOf d21 := by
                  intro x hx hmem
                  rw [hp21] at hx
                  have hxp : x ∈ t :: rest := List.mem_of_mem_filter hx
                  have hxnr : (missingOf d1 x).isEmpty = false := by
                    have hxf := (List.mem_filter.mp hx).2
                    cases hie : (missingOf d1 x).isEmpty
                    · rfl
                    · rw [hie] at hxf
                      simp at hxf
                  have hsome : dictGet d21 x.ret ≠ none := by
                    intro hc
                    exact ((dictGet_eq_none_iff d21 x.ret).mp hc) hmem
                  rw [hchar1 x.ret] at hsome
                  have hfb : dictGet d1 x.ret = none :=
                    (dictGet_eq_none_iff d1 x.ret).mpr (hfresh x hxp)
                  unfold writeLook at hsome
                  cases hfind : ((t :: rest).filter
                      (fun w => (missingOf d1 w).isEmpty)).find?
                      (fun w => decide (w.ret = x.ret) && (resultOn d1 w).isSome) with
                  | none =>
                    rw [hfind] at hsome
                    exact hsome hfb
                  | some w =>
                    rw [hfind] at hsome
                    have hw1 : w ∈ (t :: rest).filter
                        (fun w => (missingOf d1 w).isEmpty) :=
                      List.mem_of_find?_eq_some hfind
                    have hpredw := List.find?_some hfind
                    have hwret : w.ret = x.ret :=
                      of_decide_eq_true ((Bool.and_eq_true _ _).mp hpredw).1
                    have hwp : w ∈ t :: rest := List.mem_of_mem_filter hw1
                    have hwx : w = x :=
                      List.inj_on_of_nodup_map hrets hwp hxp hwret
                    subst hwx
                    have hwready : (missingOf d1 w).isEmpty = true :=
                      (List.mem_filter.mp hw1).2
                    rw [hxnr] at hwready
                    cases hwready
                obtain ⟨hokEq, hokData⟩ :=
                  ih d21 d22 p21 p22 hdNext hpermNext hidsNext hretsNext hfreshNext
                rw [hres1, hres2]
                constructor
                · rw [isOk_addTrace, isOk_addTrace]
                  exact hokEq
                · intro dF1 trF1 dF2 trF2 h1 h2
                  cases hrec1 : execLoop n d21 p21 with
                  | err e3 d3 tr3 =>
                    rw [hrec1] at h1
                    simp [addTrace] at h1
                  | ok d3 tr3 =>
                    rw [hrec1] at h1
                    simp only [addTrace, ExecResult.ok.injEq] at h1
                    cases hrec2 : execLoop n d22 p22 with
                    | err e4 d4 tr4 =>
                      rw [hrec2] at h2
                      simp [addTrace] at h2
                    | ok d4 tr4 =>
                      rw [hrec2] at h2
                      simp only [addTrace, ExecResult.ok.injEq] at h2
                      have hres := hokData d3 tr3 d4 tr4 hrec1 hrec2
                      rw [← h1.1, ← h2.1]
                      exact hres

/-- C5 (counterexample): `[c5B, c5A]` is a permutation of `[c5A, c5B]`; both
orders execute successfully from the same seeded data, but the final value
under key `1` is `10` in one order and `109` in the other, because `c5B`
overwrites the seeded key `0` that `c5A` reads. -/
theorem order_dependent_result_cex :
    ([c5B, c5A] : List (TaskSpec ℕ ℕ)).Perm [c5A, c5B] ∧
    (resultData (execute [c5A, c5B] [(Ann.key 0, 0)])).map
      (fun d => dictGet d (Ann.key 1)) = some (some 10) ∧
    (resultData (execute [c5B, c5A] [(Ann.key 0, 0)])).map
      (fun d => dictGet d (Ann.key 1)) = some (some 109) ∧
    (10 : ℕ) ≠ 109 :=
  ⟨List.Perm.swap c5A c5B [], rfl, rfl, by decide⟩

/-- C5 (amended): permuting the registration order of a step's tasks yields
the same outcome *provided the step performs no overwrites*: the tasks have
pairwise-distinct output annotations, none of which is already present in
the starting step data (task identities distinct, as Python classes are).
Then one order succeeds exactly when the other does, and on success the
final step data agree on every key. -/
theorem execute_perm_invariant (tasks1 tasks2 : List (TaskSpec K V))
    (d : StepData K V)
    (hperm : tasks2.Perm tasks1)
    (hids : (tasks1.map (fun t => t.id)).Nodup)
    (hrets : (tasks1.map (fun t => t.ret)).Nodup)
    (hfresh : ∀ t ∈ tasks1, t.ret ∉ keysOf d) :
    (isOk (execute tasks1 d) = isOk (execute tasks2 d)) ∧
    (∀ dF1 trF1 dF2 trF2, execute tasks1 d = .ok dF1 trF1 →
      execute tasks2 d = .ok dF2 trF2 →
      ∀ k, dictGet dF1 k = dictGet dF2 k) := by
  cases hb1 : badParamError tasks1 with
  | some pr1 =>
    obtain ⟨t1, dep1⟩ := pr1
    have hres1 : execute tasks1 d = .err (.injectionInit t1 dep1) d [] := by
      unfold execute
      rw [hb1]
    cases hb2 : badParamError tasks2 with
    | some pr2 =>
      obtain ⟨t2, dep2⟩ := pr2
      have hres2 : execute tasks2 d = .err (.injectionInit t2 dep2) d [] := by
        unfold execute
        rw [hb2]
      rw [hres1, hres2]
      refine ⟨rfl, ?_⟩
      intro dF1 trF1 dF2 trF2 h1 h2
      cases h1
    | none =>
      exfalso
      obtain ⟨t, ht, hft⟩ := List.exists_of_findSome?_eq_some hb1
      have h2none := List.findSome?_eq_none_iff.mp hb2 t (hperm.mem_iff.mpr ht)
      rw [h2none] at hft
      cases hft
  | none =>
    cases hb2 : badParamError tasks2 with
    | some pr2 =>
      exfalso
      obtain ⟨t, ht, hft⟩ := List.exists_of_findSome?_eq_some hb2
      have h1none := List.findSome?_eq_none_iff.mp hb1 t (hperm.mem_iff.mp ht)
      rw [h1none] at hft
      cases hft
    | none =>
      have hres1 : execute tasks1 d = execLoop tasks1.length d tasks1 := by
        unfold execute
        rw [hb1]
      have hres2 : execute tasks2 d = execLoop tasks1.length d tasks2 := by
        unfold execute
        rw [hb2, hperm.length_eq]
      rw [hres1, hres2]
      exact execLoop_perm_sim tasks1.length d d tasks1 tasks2
        (fun k => rfl) hperm hids hrets hfresh

/-- Witness for the amended C5: the chain `[c5P, c5Q]` and its permutation
`[c5Q, c5P]` (distinct outputs `0` and `1`, empty seed) succeed together and
agree at key `1`. -/
theorem execute_perm_invariant_witness :
    isOk (execute [c5P, c5Q] ([] : StepData ℕ ℕ)) =
      isOk (execute [c5Q, c5P] ([] : StepData ℕ ℕ)) ∧
    dictGet ([(Ann.key 0, 1), (Ann.key 1, 2)] : StepData ℕ ℕ) (Ann.key 1) =
      dictGet ([(Ann.key 0, 1), (Ann.key 1, 2)] : StepData ℕ ℕ) (Ann.key 1) := by
  have h := execute_perm_invariant [c5P, c5Q] [c5Q, c5P] ([] : StepData ℕ ℕ)
    (List.Perm.swap c5P c5Q []) (by decide) (by decide)
    (fun t _ => List.not_mem_nil t.ret)
  refine ⟨h.1, ?_⟩
  exact h.2 [(Ann.key 0, 1), (Ann.key 1, 2)]
    [⟨c5P, [], [], some 1⟩, ⟨c5Q, [(Ann.key 0, 1)], [1], some 2⟩]
    [(Ann.key 0, 1), (Ann.key 1, 2)]
    [⟨c5P, [], [], some 1⟩, ⟨c5Q, [(Ann.key 0, 1)], [1], some 2⟩]
    rfl rfl (Ann.key 1)

end Optiframe

